import Mathlib

/-!
Formal model of the request-signing and symmetric-encryption layer of the
tmbk repository (files app/service/crypto_helper.py and app/client/encrypt.py).

Modelling conventions:
* Python byte strings are `List Nat` (each entry intended `< 256`);
  Python text strings are `List Char` (Unicode code points).
* Python functions that raise and are wrapped in try/except are modelled as
  total functions returning the caught-case value, with the uncaught
  pipeline exposed through `Option` where useful.
* The AES block primitive comes from the external PyCryptodome library, so
  it is a parameter (`BlockCipher`); the CBC chaining, PKCS7 padding,
  base64, UTF-8, SHA-256/512 and HMAC computations used by the repository
  are implemented concretely below.
* Wall-clock reads (time.time, os.urandom) are passed in explicitly.
-/

namespace Tmbk

set_option maxRecDepth 1000000

abbrev Bytes := List Nat

/-- The six characters Python's str.strip / str.split treat as whitespace
(ASCII subset, which is all the repository ever feeds them). -/
def isPySpace (c : Char) : Bool :=
  c.toNat = 32 ∨ c.toNat = 9 ∨ c.toNat = 10 ∨ c.toNat = 13 ∨ c.toNat = 11 ∨ c.toNat = 12

/-- Python str.strip(): drop leading and trailing whitespace. -/
def pyStrip (s : List Char) : List Char :=
  (((s.dropWhile isPySpace).reverse).dropWhile isPySpace).reverse

/-- Python "".join(s.split()): removing every whitespace character. -/
def removePySpace (s : List Char) : List Char :=
  s.filter (fun c => ¬ isPySpace c)

/-- Python s.split(sep) for a one-character separator: split keeping empties. -/
def splitOnChar (sep : Char) (s : List Char) : List (List Char) :=
  match s with
  | [] => [[]]
  | c :: rest =>
    let r := splitOnChar sep rest
    if c = sep then [] :: r
    else
      match r with
      | [] => [[c]]
      | g :: gs => (c :: g) :: gs

/-- Decimal digits of a natural number, most significant first; the fuel
argument only bounds the recursion depth (any fuel at least n is exact). -/
def natDecCharsGo (fuel : Nat) (n : Nat) (acc : List Char) : List Char :=
  match fuel with
  | 0 => acc
  | f + 1 =>
    if n = 0 then acc
    else natDecCharsGo f (n / 10) (Char.ofNat (48 + n % 10) :: acc)

/-- Python str(n) for a non-negative integer. -/
def natDecChars (n : Nat) : List Char :=
  if n = 0 then [Char.ofNat 48] else natDecCharsGo n n []

/-- Python str(i) for an int (possibly negative). -/
def intDecChars (i : Int) : List Char :=
  if i < 0 then Char.ofNat 45 :: natDecChars i.natAbs else natDecChars i.toNat

/-- Value of a decimal digit string read left to right. -/
def digitsVal (cs : List Char) : Nat :=
  cs.foldl (fun a c => a * 10 + (c.toNat - 48)) 0

/-- Python int(s) on an already-stripped string: optional sign then a
non-empty run of decimal digits (the underscore digit-grouping extension of
Python's int() is not used by this repository and is not modelled). -/
def pyParseInt (s : List Char) : Option Int :=
  let digitsOnly : List Char → Option Nat := fun cs =>
    if cs ≠ [] ∧ cs.all (fun c => 48 ≤ c.toNat ∧ c.toNat ≤ 57) then some (digitsVal cs)
    else none
  match s with
  | c :: rest =>
    if c.toNat = 43 then (digitsOnly rest).map Int.ofNat
    else if c.toNat = 45 then (digitsOnly rest).map (fun n => -(Int.ofNat n))
    else (digitsOnly s).map Int.ofNat
  | [] => none

/-- Lowercase hex digit for a nibble. -/
def hexDigitChar (n : Nat) : Char :=
  if n < 10 then Char.ofNat (48 + n) else Char.ofNat (87 + n)

/-- Two lowercase hex digits of a byte. -/
def byteHexChars (b : Nat) : List Char :=
  [hexDigitChar (b / 16), hexDigitChar (b % 16)]

/-- Lowercase hex string of a byte string (Python bytes.hex() /
hashlib hexdigest()). -/
def bytesToHex (bs : Bytes) : List Char :=
  bs.foldr (fun b acc => byteHexChars b ++ acc) []

/-- Value of a hex digit character, if it is one. -/
def hexDigitVal (c : Char) : Option Nat :=
  let n := c.toNat
  if 48 ≤ n ∧ n ≤ 57 then some (n - 48)
  else if 97 ≤ n ∧ n ≤ 102 then some (n - 87)
  else if 65 ≤ n ∧ n ≤ 70 then some (n - 55)
  else none

/-- Python bytes.fromhex on a string with spaces removed: strict pairs of
hex digits. -/
def hexPairsToBytes (cs : List Char) : Option Bytes :=
  match cs with
  | [] => some []
  | c1 :: c2 :: rest =>
    match hexDigitVal c1, hexDigitVal c2 with
    | some h, some l => (hexPairsToBytes rest).map (fun bs => (h * 16 + l) :: bs)
    | _, _ => none
  | _ => none

/-- Python bytes.fromhex(s): ASCII spaces are ignored, the rest must be an
even run of hex digits. -/
def bytesFromHex (cs : List Char) : Option Bytes :=
  hexPairsToBytes (cs.filter (fun c => c.toNat ≠ 32))

/- ---------------------------------------------------------------------
SHA-256 and SHA-512 (FIPS 180-4), on byte lists, words as Nat mod 2^w.
These model the hashlib.sha256 / hashlib.sha512 primitives the repository
calls for IV derivation and HMAC signatures.
--------------------------------------------------------------------- -/

/-- Rotate a w-bit word right by n. -/
def rotr (w n x : Nat) : Nat := ((x >>> n) ||| (x <<< (w - n))) % 2 ^ w

/-- Big-endian bytes of a 32-bit word. -/
def word32Bytes (x : Nat) : Bytes :=
  [x / 2 ^ 24 % 256, x / 2 ^ 16 % 256, x / 2 ^ 8 % 256, x % 256]

/-- Big-endian bytes of a 64-bit word. -/
def word64Bytes (x : Nat) : Bytes :=
  [x / 2 ^ 56 % 256, x / 2 ^ 48 % 256, x / 2 ^ 40 % 256, x / 2 ^ 32 % 256,
   x / 2 ^ 24 % 256, x / 2 ^ 16 % 256, x / 2 ^ 8 % 256, x % 256]

/-- Interpret consecutive groups of k bytes as big-endian words (k > 0;
fuel bounds the recursion depth, the byte-list length is always enough). -/
def bytesToWordsGo (fuel k : Nat) (bs : Bytes) : List Nat :=
  match fuel, bs with
  | _, [] => []
  | 0, _ => []
  | f + 1, b :: rest =>
    ((b :: rest).take k).foldl (fun a x => a * 256 + x) 0 ::
      bytesToWordsGo f k ((b :: rest).drop k)

def bytesToWordsBE (k : Nat) (bs : Bytes) : List Nat :=
  bytesToWordsGo bs.length k bs

/-- Merkle–Damgård padding shared by SHA-256 (lenBytes = 8, block 64) and
SHA-512 (lenBytes = 16, block 128). -/
def shaPad (block lenBytes : Nat) (msg : Bytes) : Bytes :=
  let l := msg.length
  let zeros := (block - (l + 1 + lenBytes) % block) % block
  let lenField := (List.range lenBytes).reverse.map (fun i => (l * 8) / 2 ^ (8 * i) % 256)
  msg ++ [128] ++ List.replicate zeros 0 ++ lenField

/-- Hash state: eight working words. -/
structure Hash8 where
  a : Nat
  b : Nat
  c : Nat
  d : Nat
  e : Nat
  f : Nat
  g : Nat
  h : Nat

def sha256K : List Nat :=
  [1116352408, 1899447441, 3049323471, 3921009573, 961987163, 1508970993,
   2453635748, 2870763221, 3624381080, 310598401, 607225278, 1426881987,
   1925078388, 2162078206, 2614888103, 3248222580, 3835390401, 4022224774,
   264347078, 604807628, 770255983, 1249150122, 1555081692, 1996064986,
   2554220882, 2821834349, 2952996808, 3210313671, 3336571891, 3584528711,
   113926993, 338241895, 666307205, 773529912, 1294757372, 1396182291,
   1695183700, 1986661051, 2177026350, 2456956037, 2730485921, 2820302411,
   3259730800, 3345764771, 3516065817, 3600352804, 4094571909, 275423344,
   430227734, 506948616, 659060556, 883997877, 958139571, 1322822218,
   1537002063, 1747873779, 1955562222, 2024104815, 2227730452, 2361852424,
   2428436474, 2756734187, 3204031479, 3329325298]

def sha256H0 : Hash8 :=
  ⟨1779033703, 3144134277, 1013904242, 2773480762,
   1359893119, 2600822924, 528734635, 1541459225⟩

/-- Message-schedule extension step for SHA-256. -/
def sha256Extend (w : List Nat) (steps : Nat) : List Nat :=
  match steps with
  | 0 => w
  | s + 1 =>
    let i := w.length
    let w15 := w.getD (i - 15) 0
    let w2 := w.getD (i - 2) 0
    let s0 := rotr 32 7 w15 ^^^ rotr 32 18 w15 ^^^ (w15 >>> 3)
    let s1 := rotr 32 17 w2 ^^^ rotr 32 19 w2 ^^^ (w2 >>> 10)
    sha256Extend (w ++ [(w.getD (i - 16) 0 + s0 + w.getD (i - 7) 0 + s1) % 2 ^ 32]) s

/-- One SHA-256 round. -/
def sha256Round (st : Hash8) (kw : Nat × Nat) : Hash8 :=
  let s1 := rotr 32 6 st.e ^^^ rotr 32 11 st.e ^^^ rotr 32 25 st.e
  let ch := (st.e &&& st.f) ^^^ ((st.e ^^^ (2 ^ 32 - 1)) &&& st.g)
  let t1 := (st.h + s1 + ch + kw.1 + kw.2) % 2 ^ 32
  let s0 := rotr 32 2 st.a ^^^ rotr 32 13 st.a ^^^ rotr 32 22 st.a
  let maj := (st.a &&& st.b) ^^^ (st.a &&& st.c) ^^^ (st.b &&& st.c)
  let t2 := (s0 + maj) % 2 ^ 32
  ⟨(t1 + t2) % 2 ^ 32, st.a, st.b, st.c, (st.d + t1) % 2 ^ 32, st.e, st.f, st.g⟩

/-- Compress one 64-byte block into the SHA-256 state. -/
def sha256Compress (st : Hash8) (blockBytes : Bytes) : Hash8 :=
  let w := sha256Extend (bytesToWordsBE 4 blockBytes) 48
  let r := (sha256K.zip w).foldl sha256Round st
  ⟨(st.a + r.a) % 2 ^ 32, (st.b + r.b) % 2 ^ 32, (st.c + r.c) % 2 ^ 32,
   (st.d + r.d) % 2 ^ 32, (st.e + r.e) % 2 ^ 32, (st.f + r.f) % 2 ^ 32,
   (st.g + r.g) % 2 ^ 32, (st.h + r.h) % 2 ^ 32⟩

/-- Split a list into consecutive chunks of n elements (n > 0; fuel bounds
the recursion depth, the list length is always enough). -/
def chunksGo (fuel n : Nat) (l : List α) : List (List α) :=
  match fuel, l with
  | _, [] => []
  | 0, _ => []
  | f + 1, a :: rest => ((a :: rest).take n) :: chunksGo f n ((a :: rest).drop n)

def chunksOf (n : Nat) (l : List α) : List (List α) :=
  chunksGo l.length n l

/-- SHA-256 digest (32 bytes) of a byte string. -/
def sha256 (msg : Bytes) : Bytes :=
  let fin := (chunksOf 64 (shaPad 64 8 msg)).foldl sha256Compress sha256H0
  word32Bytes fin.a ++ word32Bytes fin.b ++ word32Bytes fin.c ++ word32Bytes fin.d ++
  word32Bytes fin.e ++ word32Bytes fin.f ++ word32Bytes fin.g ++ word32Bytes fin.h

def sha512K : List Nat :=
  [4794697086780616226, 8158064640168781261, 13096744586834688815, 16840607885511220156,
   4131703408338449720, 6480981068601479193, 10538285296894168987, 12329834152419229976,
   15566598209576043074, 1334009975649890238, 2608012711638119052, 6128411473006802146,
   8268148722764581231, 9286055187155687089, 11230858885718282805, 13951009754708518548,
   16472876342353939154, 17275323862435702243, 1135362057144423861, 2597628984639134821,
   3308224258029322869, 5365058923640841347, 6679025012923562964, 8573033837759648693,
   10970295158949994411, 12119686244451234320, 12683024718118986047, 13788192230050041572,
   14330467153632333762, 15395433587784984357, 489312712824947311, 1452737877330783856,
   2861767655752347644, 3322285676063803686, 5560940570517711597, 5996557281743188959,
   7280758554555802590, 8532644243296465576, 9350256976987008742, 10552545826968843579,
   11727347734174303076, 12113106623233404929, 14000437183269869457, 14369950271660146224,
   15101387698204529176, 15463397548674623760, 17586052441742319658, 1182934255886127544,
   1847814050463011016, 2177327727835720531, 2830643537854262169, 3796741975233480872,
   4115178125766777443, 5681478168544905931, 6601373596472566643, 7507060721942968483,
   8399075790359081724, 8693463985226723168, 9568029438360202098, 10144078919501101548,
   10430055236837252648, 11840083180663258601, 13761210420658862357, 14299343276471374635,
   14566680578165727644, 15097957966210449927, 16922976911328602910, 17689382322260857208,
   500013540394364858, 748580250866718886, 1242879168328830382, 1977374033974150939,
   2944078676154940804, 3659926193048069267, 4368137639120453308, 4836135668995329356,
   5532061633213252278, 6448918945643986474, 6902733635092675308, 7801388544844847127]

def sha512H0 : Hash8 :=
  ⟨7640891576956012808, 13503953896175478587, 4354685564936845355, 11912009170470909681,
   5840696475078001361, 11170449401992604703, 2270897969802886507, 6620516959819538809⟩

/-- Message-schedule extension step for SHA-512. -/
def sha512Extend (w : List Nat) (steps : Nat) : List Nat :=
  match steps with
  | 0 => w
  | s + 1 =>
    let i := w.length
    let w15 := w.getD (i - 15) 0
    let w2 := w.getD (i - 2) 0
    let s0 := rotr 64 1 w15 ^^^ rotr 64 8 w15 ^^^ (w15 >>> 7)
    let s1 := rotr 64 19 w2 ^^^ rotr 64 61 w2 ^^^ (w2 >>> 6)
    sha512Extend (w ++ [(w.getD (i - 16) 0 + s0 + w.getD (i - 7) 0 + s1) % 2 ^ 64]) s

/-- One SHA-512 round. -/
def sha512Round (st : Hash8) (kw : Nat × Nat) : Hash8 :=
  let s1 := rotr 64 14 st.e ^^^ rotr 64 18 st.e ^^^ rotr 64 41 st.e
  let ch := (st.e &&& st.f) ^^^ ((st.e ^^^ (2 ^ 64 - 1)) &&& st.g)
  let t1 := (st.h + s1 + ch + kw.1 + kw.2) % 2 ^ 64
  let s0 := rotr 64 28 st.a ^^^ rotr 64 34 st.a ^^^ rotr 64 39 st.a
  let maj := (st.a &&& st.b) ^^^ (st.a &&& st.c) ^^^ (st.b &&& st.c)
  let t2 := (s0 + maj) % 2 ^ 64
  ⟨(t1 + t2) % 2 ^ 64, st.a, st.b, st.c, (st.d + t1) % 2 ^ 64, st.e, st.f, st.g⟩

/-- Compress one 128-byte block into the SHA-512 state. -/
def sha512Compress (st : Hash8) (blockBytes : Bytes) : Hash8 :=
  let w := sha512Extend (bytesToWordsBE 8 blockBytes) 64
  let r := (sha512K.zip w).foldl sha512Round st
  ⟨(st.a + r.a) % 2 ^ 64, (st.b + r.b) % 2 ^ 64, (st.c + r.c) % 2 ^ 64,
   (st.d + r.d) % 2 ^ 64, (st.e + r.e) % 2 ^ 64, (st.f + r.f) % 2 ^ 64,
   (st.g + r.g) % 2 ^ 64, (st.h + r.h) % 2 ^ 64⟩

/-- SHA-512 digest (64 bytes) of a byte string. -/
def sha512 (msg : Bytes) : Bytes :=
  let fin := (chunksOf 128 (shaPad 128 16 msg)).foldl sha512Compress sha512H0
  word64Bytes fin.a ++ word64Bytes fin.b ++ word64Bytes fin.c ++ word64Bytes fin.d ++
  word64Bytes fin.e ++ word64Bytes fin.f ++ word64Bytes fin.g ++ word64Bytes fin.h

/-- HMAC-SHA512 (RFC 2104), block size 128 bytes; models hmac.new(key, msg,
hashlib.sha512).digest(). -/
def hmacSha512 (key msg : Bytes) : Bytes :=
  let k0 := if 128 < key.length then sha512 key else key
  let k := k0 ++ List.replicate (128 - k0.length) 0
  let ipad := k.map (fun b => b ^^^ 0x36)
  let opad := k.map (fun b => b ^^^ 0x5c)
  sha512 (opad ++ sha512 (ipad ++ msg))

/- ---------------------------------------------------------------------
UTF-8 (models Python str.encode("utf-8") and bytes.decode("utf-8",
errors="strict")).
--------------------------------------------------------------------- -/

/-- UTF-8 bytes of one character. -/
def utf8EncodeChar (c : Char) : Bytes :=
  if c.toNat < 128 then [c.toNat]
  else if c.toNat < 2048 then [192 + c.toNat / 64, 128 + c.toNat % 64]
  else if c.toNat < 65536 then
    [224 + c.toNat / 4096, 128 + c.toNat / 64 % 64, 128 + c.toNat % 64]
  else
    [240 + c.toNat / 262144, 128 + c.toNat / 4096 % 64, 128 + c.toNat / 64 % 64,
     128 + c.toNat % 64]

/-- UTF-8 bytes of a string. -/
def utf8Encode (s : List Char) : Bytes :=
  s.foldr (fun c acc => utf8EncodeChar c ++ acc) []

/-- Continuation byte test. -/
def isCont (b : Nat) : Bool := 128 ≤ b ∧ b < 192

/-- Decode one UTF-8 scalar from the head of a byte string: strict, like
Python bytes.decode("utf-8") — rejects overlong forms, surrogates and
out-of-range code points. Returns the code point and the remaining bytes. -/
def utf8DecodeOne : Bytes → Option (Nat × Bytes)
  | [] => Option.none
  | b :: rest =>
    if b < 128 then some (b, rest)
    else if b < 194 then Option.none
    else if b < 224 then
      match rest with
      | b1 :: r => if isCont b1 then some ((b - 192) * 64 + (b1 - 128), r) else Option.none
      | [] => Option.none
    else if b < 240 then
      match rest with
      | b1 :: b2 :: r =>
        if isCont b1 ∧ isCont b2 ∧ 2048 ≤ (b - 224) * 4096 + (b1 - 128) * 64 + (b2 - 128) ∧
            ¬ (55296 ≤ (b - 224) * 4096 + (b1 - 128) * 64 + (b2 - 128) ∧
               (b - 224) * 4096 + (b1 - 128) * 64 + (b2 - 128) < 57344) then
          some ((b - 224) * 4096 + (b1 - 128) * 64 + (b2 - 128), r)
        else Option.none
      | _ => Option.none
    else if b < 245 then
      match rest with
      | b1 :: b2 :: b3 :: r =>
        if isCont b1 ∧ isCont b2 ∧ isCont b3 ∧
            65536 ≤ (b - 240) * 262144 + (b1 - 128) * 4096 + (b2 - 128) * 64 + (b3 - 128) ∧
            (b - 240) * 262144 + (b1 - 128) * 4096 + (b2 - 128) * 64 + (b3 - 128) < 1114112 then
          some ((b - 240) * 262144 + (b1 - 128) * 4096 + (b2 - 128) * 64 + (b3 - 128), r)
        else Option.none
      | _ => Option.none
    else Option.none

/-- Scalar-by-scalar strict UTF-8 decoding (fuel bounds the recursion
depth; the byte-list length is always enough). -/
def utf8DecodeGo : Nat → Bytes → Option (List Char)
  | _, [] => some []
  | 0, _ => Option.none
  | f + 1, b :: rest =>
    match utf8DecodeOne (b :: rest) with
    | some (n, r) => (utf8DecodeGo f r).map (fun cs => Char.ofNat n :: cs)
    | Option.none => Option.none

/-- Python bytes.decode("utf-8", errors="strict"), none where it raises. -/
def utf8Decode (bs : Bytes) : Option (List Char) :=
  utf8DecodeGo bs.length bs

/- ---------------------------------------------------------------------
Base64 (standard and URL-safe alphabets), modelling Python's
base64.urlsafe_b64encode / urlsafe_b64decode (validate=False).
--------------------------------------------------------------------- -/

/-- Character of a 6-bit group in the standard base64 alphabet. -/
def b64EncChar (n : Nat) : Char :=
  if n < 26 then Char.ofNat (65 + n)
  else if n < 52 then Char.ofNat (71 + n)
  else if n < 62 then Char.ofNat (n - 4)
  else if n = 62 then Char.ofNat 43
  else Char.ofNat 47

/-- Standard base64 encoding with '=' padding. -/
def b64Encode : Bytes → List Char
  | [] => []
  | [a] => [b64EncChar (a / 4), b64EncChar (a % 4 * 16), Char.ofNat 61, Char.ofNat 61]
  | [a, b] =>
    [b64EncChar (a / 4), b64EncChar (a % 4 * 16 + b / 16), b64EncChar (b % 16 * 4),
     Char.ofNat 61]
  | a :: b :: c :: rest =>
    b64EncChar (a / 4) :: b64EncChar (a % 4 * 16 + b / 16) ::
      b64EncChar (b % 16 * 4 + c / 64) :: b64EncChar (c % 64) :: b64Encode rest

/-- Value of a standard base64 alphabet character. -/
def b64DecChar (c : Char) : Option Nat :=
  let n := c.toNat
  if 65 ≤ n ∧ n ≤ 90 then some (n - 65)
  else if 97 ≤ n ∧ n ≤ 122 then some (n - 71)
  else if 48 ≤ n ∧ n ≤ 57 then some (n + 4)
  else if n = 43 then some 62
  else if n = 47 then some 63
  else none

/-- Decode 4-character base64 groups; '=' padding only in the final group. -/
def b64DecodeGroups : List Char → Option Bytes
  | [] => some []
  | c1 :: c2 :: c3 :: c4 :: rest =>
    match b64DecChar c1, b64DecChar c2 with
    | some n1, some n2 =>
      if rest = [] ∧ c3 = Char.ofNat 61 ∧ c4 = Char.ofNat 61 then
        some [n1 * 4 + n2 / 16]
      else if rest = [] ∧ c4 = Char.ofNat 61 then
        match b64DecChar c3 with
        | some n3 => some [n1 * 4 + n2 / 16, n2 % 16 * 16 + n3 / 4]
        | none => none
      else
        match b64DecChar c3, b64DecChar c4 with
        | some n3, some n4 =>
          (b64DecodeGroups rest).map
            (fun bs => (n1 * 4 + n2 / 16) :: (n2 % 16 * 16 + n3 / 4) :: (n3 % 4 * 64 + n4) :: bs)
        | _, _ => none
    | _, _ => none
  | _ => none

/-- Python base64.b64decode(s, validate=False): characters outside the
alphabet are discarded, then 4-character groups are decoded. -/
def b64Decode (cs : List Char) : Option Bytes :=
  b64DecodeGroups (cs.filter (fun c => (b64DecChar c).isSome ∨ c = Char.ofNat 61))

/-- urlsafe alphabet translation used on decode: '-' to '+', '_' to '/'. -/
def toStdB64Char (c : Char) : Char :=
  if c = Char.ofNat 45 then Char.ofNat 43
  else if c = Char.ofNat 95 then Char.ofNat 47
  else c

/-- urlsafe alphabet translation used on encode: '+' to '-', '/' to '_'. -/
def toUrlB64Char (c : Char) : Char :=
  if c = Char.ofNat 43 then Char.ofNat 45
  else if c = Char.ofNat 47 then Char.ofNat 95
  else c

/-- Python base64.urlsafe_b64encode. -/
def urlsafeB64Encode (bs : Bytes) : List Char :=
  (b64Encode bs).map toUrlB64Char

/-- Python base64.urlsafe_b64decode. -/
def urlsafeB64Decode (cs : List Char) : Option Bytes :=
  b64Decode (cs.map toStdB64Char)

/- ---------------------------------------------------------------------
PKCS7 padding (Crypto.Util.Padding with style pkcs7, block size 16).
--------------------------------------------------------------------- -/

/-- Crypto.Util.Padding.pad(data, 16, style="pkcs7"). -/
def pkcs7Pad (bs : Bytes) : Bytes :=
  let p := 16 - bs.length % 16
  bs ++ List.replicate p p

/-- Crypto.Util.Padding.unpad(data, 16, style="pkcs7"); none where the
library raises ValueError (this is also crypto_helper._safe_unpad). -/
def pkcs7Unpad (bs : Bytes) : Option Bytes :=
  if bs.length = 0 then none
  else if bs.length % 16 ≠ 0 then none
  else
    match bs.getLast? with
    | none => none
    | some p =>
      if p < 1 ∨ 16 < p then none
      else if bs.drop (bs.length - p) = List.replicate p p then some (bs.take (bs.length - p))
      else none

/- ---------------------------------------------------------------------
AES-CBC. The AES block permutation itself lives in the external
PyCryptodome library, so it is abstracted as a BlockCipher parameter;
the CBC chaining below models AES.new(key, AES.MODE_CBC, iv).encrypt /
.decrypt on whole-block inputs.
--------------------------------------------------------------------- -/

/-- An abstract 16-byte block cipher (the AES.new(...).encrypt_block /
decrypt_block primitive). -/
structure BlockCipher where
  encBlock : Bytes → Bytes → Bytes
  decBlock : Bytes → Bytes → Bytes

/-- Bytewise xor. -/
def xorBytes (a b : Bytes) : Bytes := List.zipWith (fun x y => x ^^^ y) a b

/-- CBC-mode encryption, block by block (fuel bounds the recursion depth;
the plaintext length is always enough fuel). -/
def cbcEncGo (C : BlockCipher) (key : Bytes) : Nat → Bytes → Bytes → Bytes
  | _, _, [] => []
  | 0, _, _ => []
  | f + 1, iv, p :: rest =>
    let blk := C.encBlock key (xorBytes iv ((p :: rest).take 16))
    blk ++ cbcEncGo C key f blk ((p :: rest).drop 16)

/-- CBC-mode encryption of a whole number of 16-byte blocks. -/
def cbcEncrypt (C : BlockCipher) (key iv pt : Bytes) : Bytes :=
  cbcEncGo C key pt.length iv pt

/-- CBC-mode decryption, block by block (fuelled like cbcEncGo). -/
def cbcDecGo (C : BlockCipher) (key : Bytes) : Nat → Bytes → Bytes → Bytes
  | _, _, [] => []
  | 0, _, _ => []
  | f + 1, iv, c :: rest =>
    xorBytes iv (C.decBlock key ((c :: rest).take 16)) ++
      cbcDecGo C key f ((c :: rest).take 16) ((c :: rest).drop 16)

/-- CBC-mode decryption of a whole number of 16-byte blocks. -/
def cbcDecrypt (C : BlockCipher) (key iv ct : Bytes) : Bytes :=
  cbcDecGo C key ct.length iv ct

/-- The properties of a genuine block cipher under a valid AES key length:
on 16-byte blocks of bytes it returns a 16-byte block of bytes and
decryption inverts encryption. -/
def GoodCipher (C : BlockCipher) : Prop :=
  ∀ key : Bytes, (key.length = 16 ∨ key.length = 24 ∨ key.length = 32) →
    ∀ b : Bytes, b.length = 16 → (∀ x ∈ b, x < 256) →
      (C.encBlock key b).length = 16 ∧ (∀ x ∈ C.encBlock key b, x < 256) ∧
        C.decBlock key (C.encBlock key b) = b

/-- A concrete executable block cipher instance used to exercise the
definitions: bytes are shifted by the first key byte. -/
def shiftCipher : BlockCipher where
  encBlock key b := b.map (fun x => (x + key.headD 0) % 256)
  decBlock key b := b.map (fun x => (x + 256 - key.headD 0 % 256) % 256)

/- ---------------------------------------------------------------------
app/service/crypto_helper.py
--------------------------------------------------------------------- -/

/-- The key-material environment the module reads at import time, plus the
optional xdata.keys file contents (its lines), passed explicitly. -/
structure CryptoEnv where
  xdata_key : List Char
  xdata_keys : List Char
  xdata_keys_file : Option (List (List Char))
  encrypted_field_key : List Char
  x_api_base_secret : List Char

/-- The format dispatch of crypto_helper._key_bytes on the stripped key
string: hex:, b64: or raw UTF-8. -/
def keyBytesDecode (s : List Char) : Option Bytes :=
  if (s.map Char.toLower).take 4 = ['h', 'e', 'x', ':'] then
    bytesFromHex (pyStrip (s.drop 4))
  else if (s.map Char.toLower).take 4 = ['b', '6', '4', ':'] then
    b64Decode (pyStrip (s.drop 4))
  else some (utf8Encode s)

/-- crypto_helper._key_bytes: decode a key string (hex:/b64:/raw utf-8)
and accept it only at AES lengths 16/24/32. -/
def keyBytes (keyStr : List Char) : Option Bytes :=
  if keyStr = [] then Option.none
  else
    match keyBytesDecode (pyStrip keyStr) with
    | Option.none => Option.none
    | some bs =>
      if bs.length = 16 ∨ bs.length = 24 ∨ bs.length = 32 then some bs else Option.none

/-- crypto_helper._fix_b64: remove whitespace and restore '=' padding. -/
def fixB64 (s : List Char) : List Char :=
  if s = [] then []
  else
    let s2 := removePySpace s
    s2 ++ List.replicate ((4 - s2.length % 4) % 4) (Char.ofNat 61)

/-- crypto_helper.derive_iv: ASCII bytes of the first 16 hex characters of
sha256(str(int(xtime_ms))).hexdigest(), falling back to sixteen '0' bytes
if that slice is not 16 characters long. Hex characters are ASCII, so the
.encode("ascii") of the source is the character-code map. -/
def derive_iv (xtime_ms : Int) : Bytes :=
  let shaHex := bytesToHex (sha256 (utf8Encode (intDecChars xtime_ms)))
  let iv := (shaHex.take 16).map Char.toNat
  if iv.length = 16 then iv else List.replicate 16 48

/-- crypto_helper._try_decrypt_with_key; none models every caught
exception (base64 error, ciphertext not a whole number of blocks) as well
as a failed unpad or strict UTF-8 decode. -/
def tryDecryptWithKey (C : BlockCipher) (ctB64 : List Char) (xtime_ms : Int) (key : Bytes) :
    Option (List Char) :=
  let iv := derive_iv xtime_ms
  match urlsafeB64Decode (fixB64 ctB64) with
  | none => none
  | some ct =>
    if ct.length % 16 = 0 then
      match pkcs7Unpad (cbcDecrypt C key iv ct) with
      | none => none
      | some pt => utf8Decode pt
    else none

/-- crypto_helper.encrypt_xdata: pad, CBC-encrypt under XDATA_KEY with the
time-derived IV, URL-safe base64; empty string on missing plaintext or
invalid key. -/
def encrypt_xdata (C : BlockCipher) (env : CryptoEnv) (plaintext : List Char)
    (xtime_ms : Int) : List Char :=
  if plaintext = [] then []
  else
    match keyBytes env.xdata_key with
    | none => []
    | some key =>
      let iv := derive_iv xtime_ms
      urlsafeB64Encode (cbcEncrypt C key iv (pkcs7Pad (utf8Encode plaintext)))

/-- One step of crypto_helper._iter_candidate_keys._push_one: decode a raw
key string and emit it unless invalid or already seen. -/
def pushOne (seen : List Bytes) (raw : List Char) : List Bytes × List Bytes :=
  match keyBytes raw with
  | some kb => if kb ∈ seen then ([], seen) else ([kb], kb :: seen)
  | none => ([], seen)

/-- pushOne folded over a list of raw key strings. -/
def pushAll (seen : List Bytes) (raws : List (List Char)) : List Bytes × List Bytes :=
  raws.foldl (fun acc r =>
    let pr := pushOne acc.2 r
    (acc.1 ++ pr.1, pr.2)) ([], seen)

/-- crypto_helper._iter_candidate_keys: XDATA_KEY first, then the stripped
non-empty comma-separated XDATA_KEYS entries, then the stripped non-empty
non-comment lines of xdata.keys; duplicates and invalid keys skipped. -/
def iterCandidateKeys (env : CryptoEnv) : List Bytes :=
  let st1 := if env.xdata_key ≠ [] then pushOne [] env.xdata_key else ([], [])
  let envItems := ((if env.xdata_keys = [] then []
                    else splitOnChar (Char.ofNat 44) env.xdata_keys).map pyStrip).filter
    (fun i => i ≠ [])
  let st2 := pushAll st1.2 envItems
  let fileItems := ((env.xdata_keys_file.getD []).map pyStrip).filter
    (fun s => s ≠ [] ∧ s.take 1 ≠ [Char.ofNat 35])
  let st3 := pushAll st2.2 fileItems
  st1.1 ++ st2.1 ++ st3.1

/-- First successful decryption along the candidate list. -/
def firstDecrypt (C : BlockCipher) (xdata : List Char) (xtime_ms : Int) :
    List Bytes → Option (List Char)
  | [] => none
  | k :: ks =>
    match tryDecryptWithKey C xdata xtime_ms k with
    | some pt => some pt
    | none => firstDecrypt C xdata xtime_ms ks

/-- The two-character string of an empty JSON object, the failure sentinel
of decrypt_xdata. -/
def jsonEmptyChars : List Char := [Char.ofNat 123, Char.ofNat 125]

/-- crypto_helper.decrypt_xdata: multi-key decrypt, first success wins. -/
def decrypt_xdata (C : BlockCipher) (env : CryptoEnv) (xdata : List Char)
    (xtime_ms : Int) : List Char :=
  if xdata = [] then jsonEmptyChars
  else
    match firstDecrypt C xdata xtime_ms (iterCandidateKeys env) with
    | some pt => pt
    | none => jsonEmptyChars

/-- crypto_helper.encrypt_circle_msisdn; the os.urandom(8).hex() draw is
passed in as ivHex. The length-16 and ASCII guards model the exceptions
AES.new / str.encode("ascii") would raise (caught, returning ""). -/
def encrypt_circle_msisdn (C : BlockCipher) (env : CryptoEnv) (ivHex : List Char)
    (msisdn : List Char) : List Char :=
  if msisdn = [] then []
  else
    match keyBytes env.encrypted_field_key with
    | none => []
    | some key =>
      if ivHex.length = 16 ∧ ivHex.all (fun c => c.toNat < 128) then
        let iv := ivHex.map Char.toNat
        urlsafeB64Encode (cbcEncrypt C key iv (pkcs7Pad (utf8Encode msisdn))) ++ ivHex
      else []

/-- crypto_helper.decrypt_circle_msisdn: split the 16 trailing characters
off as the IV, base64-decode the rest, CBC-decrypt, unpad, UTF-8-decode;
empty string on every failure. -/
def decrypt_circle_msisdn (C : BlockCipher) (env : CryptoEnv) (blob : List Char) :
    List Char :=
  if blob = [] ∨ blob.length < 16 then []
  else
    match keyBytes env.encrypted_field_key with
    | none => []
    | some key =>
      let ivHex := blob.drop (blob.length - 16)
      let ctB64 := blob.take (blob.length - 16)
      if ivHex.all (fun c => c.toNat < 128) then
        let iv := ivHex.map Char.toNat
        match urlsafeB64Decode (fixB64 ctB64) with
        | none => []
        | some ct =>
          if ct.length % 16 = 0 then
            match pkcs7Unpad (cbcDecrypt C key iv ct) with
            | none => []
            | some pt =>
              match utf8Decode pt with
              | some s => s
              | none => []
          else []
      else []

/-- crypto_helper._hmac_sha512_hex. -/
def hmacSha512Hex (keyStr msgStr : List Char) : List Char :=
  bytesToHex (hmacSha512 (utf8Encode keyStr) (utf8Encode msgStr))

def semicolon : Char := Char.ofNat 59

/-- crypto_helper.make_x_signature: HMAC-SHA512 hex with
key = X_API_BASE_SECRET;id_token;method;path;sig_time and
msg = id_token;sig_time; (no input validation). -/
def make_x_signature (env : CryptoEnv) (id_token method path : List Char)
    (sig_time_sec : Int) : List Char :=
  let key_str := env.x_api_base_secret ++ [semicolon] ++ id_token ++ [semicolon] ++
    method ++ [semicolon] ++ path ++ [semicolon] ++ intDecChars sig_time_sec
  let msg_str := id_token ++ [semicolon] ++ intDecChars sig_time_sec ++ [semicolon]
  hmacSha512Hex key_str msg_str

/- ---------------------------------------------------------------------
app/client/encrypt.py: JSON values, the Python-value coercions, and the
EncryptionService xdata entry points.
JSON numbers are modelled as integers only; a fractional or exponent
literal makes the model parser fail (floating point is outside the model).
--------------------------------------------------------------------- -/

mutual

/-- JSON values as handled by json.dumps / json.loads (arrays and objects
through the mutual list types so that recursion over them is structural). -/
inductive Json where
  | null : Json
  | bool : Bool → Json
  | num : Int → Json
  | str : List Char → Json
  | arr : JsonElems → Json
  | obj : JsonMembers → Json

/-- The elements of a JSON array. -/
inductive JsonElems where
  | nil : JsonElems
  | cons : Json → JsonElems → JsonElems

/-- The key-value members of a JSON object. -/
inductive JsonMembers where
  | nil : JsonMembers
  | cons : List Char → Json → JsonMembers → JsonMembers

end

/-- json.dumps escaping of one string character (ensure_ascii=False). -/
def jsonEscapeChar (c : Char) : List Char :=
  let bs := Char.ofNat 92
  if c = Char.ofNat 34 then [bs, Char.ofNat 34]
  else if c = Char.ofNat 92 then [bs, bs]
  else if c = Char.ofNat 10 then [bs, Char.ofNat 110]
  else if c = Char.ofNat 9 then [bs, Char.ofNat 116]
  else if c = Char.ofNat 13 then [bs, Char.ofNat 114]
  else if c = Char.ofNat 8 then [bs, Char.ofNat 98]
  else if c = Char.ofNat 12 then [bs, Char.ofNat 102]
  else if c.toNat < 32 then
    [bs, Char.ofNat 117, Char.ofNat 48, Char.ofNat 48,
     hexDigitChar (c.toNat / 16), hexDigitChar (c.toNat % 16)]
  else [c]

/-- The serialization of a JSON string literal. -/
def jsonDumpStr (s : List Char) : List Char :=
  Char.ofNat 34 :: (s.foldr (fun c acc => jsonEscapeChar c ++ acc) [Char.ofNat 34])

mutual

/-- encrypt._safe_json_dumps: json.dumps(payload, ensure_ascii=False,
separators=(",", ":")) — the compact serialization. -/
def jsonDumps : Json → List Char
  | .null => "null".data
  | .bool true => "true".data
  | .bool false => "false".data
  | .num n => intDecChars n
  | .str s => jsonDumpStr s
  | .arr xs => Char.ofNat 91 :: (jsonDumpsArr xs ++ [Char.ofNat 93])
  | .obj kvs => Char.ofNat 123 :: (jsonDumpsObj kvs ++ [Char.ofNat 125])

def jsonDumpsArr : JsonElems → List Char
  | .nil => []
  | .cons x .nil => jsonDumps x
  | .cons x (.cons y rest) => jsonDumps x ++ Char.ofNat 44 :: jsonDumpsArr (.cons y rest)

def jsonDumpsObj : JsonMembers → List Char
  | .nil => []
  | .cons k v .nil => jsonDumpStr k ++ Char.ofNat 58 :: jsonDumps v
  | .cons k v (.cons k2 v2 rest) =>
    jsonDumpStr k ++ Char.ofNat 58 :: jsonDumps v ++
      Char.ofNat 44 :: jsonDumpsObj (.cons k2 v2 rest)

end

/-- JSON insignificant whitespace. -/
def skipJsonWs (s : List Char) : List Char :=
  s.dropWhile (fun c => c.toNat = 32 ∨ c.toNat = 9 ∨ c.toNat = 10 ∨ c.toNat = 13)

/-- Body of a JSON string after the opening quote (fuelled). -/
def parseJsonStrBody : Nat → List Char → Option (List Char × List Char)
  | 0, _ => Option.none
  | _, [] => Option.none
  | f + 1, c :: rest =>
    if c = Char.ofNat 34 then some ([], rest)
    else if c = Char.ofNat 92 then
      match rest with
      | [] => Option.none
      | e :: r2 =>
        let simpleEsc : Option Char :=
          if e = Char.ofNat 34 then some (Char.ofNat 34)
          else if e = Char.ofNat 92 then some (Char.ofNat 92)
          else if e = Char.ofNat 47 then some (Char.ofNat 47)
          else if e = Char.ofNat 98 then some (Char.ofNat 8)
          else if e = Char.ofNat 102 then some (Char.ofNat 12)
          else if e = Char.ofNat 110 then some (Char.ofNat 10)
          else if e = Char.ofNat 114 then some (Char.ofNat 13)
          else if e = Char.ofNat 116 then some (Char.ofNat 9)
          else Option.none
        match simpleEsc with
        | some ec => (parseJsonStrBody f r2).map (fun pr => (ec :: pr.1, pr.2))
        | Option.none =>
          if e = Char.ofNat 117 then
            match r2 with
            | h1 :: h2 :: h3 :: h4 :: r3 =>
              match hexDigitVal h1, hexDigitVal h2, hexDigitVal h3, hexDigitVal h4 with
              | some a, some b, some c2, some d =>
                let n := a * 4096 + b * 256 + c2 * 16 + d
                if 55296 ≤ n ∧ n < 57344 then Option.none
                else (parseJsonStrBody f r3).map (fun pr => (Char.ofNat n :: pr.1, pr.2))
              | _, _, _, _ => Option.none
            | _ => Option.none
          else Option.none
    else if c.toNat < 32 then Option.none
    else (parseJsonStrBody f rest).map (fun pr => (c :: pr.1, pr.2))

/-- JSON integer literal (strict grammar; a following '.', 'e' or 'E'
would make it a float, which the model rejects). -/
def parseJsonInt (s : List Char) : Option (Int × List Char) :=
  let isDigitC : Char → Bool := fun c => 48 ≤ c.toNat ∧ c.toNat ≤ 57
  let core : List Char → Option (Nat × List Char) := fun t =>
    match t with
    | [] => Option.none
    | d :: r =>
      if ¬ isDigitC d then Option.none
      else if d = Char.ofNat 48 then some (0, r)
      else
        let ds := (d :: r).takeWhile isDigitC
        some (digitsVal ds, (d :: r).dropWhile isDigitC)
  let withRest : Option (Int × List Char) → Option (Int × List Char) := fun res =>
    match res with
    | some (v, r) =>
      match r with
      | c :: _ =>
        if c = Char.ofNat 46 ∨ c = Char.ofNat 101 ∨ c = Char.ofNat 69 then Option.none
        else some (v, r)
      | [] => some (v, [])
    | Option.none => Option.none
  match s with
  | c :: rest =>
    if c = Char.ofNat 45 then
      withRest ((core rest).map (fun pr => (-(Int.ofNat pr.1), pr.2)))
    else withRest ((core s).map (fun pr => (Int.ofNat pr.1, pr.2)))
  | [] => Option.none

mutual

/-- One JSON value (fuelled recursive-descent, models json.loads). -/
def parseJsonValue : Nat → List Char → Option (Json × List Char)
  | 0, _ => Option.none
  | f + 1, s =>
    match skipJsonWs s with
    | [] => Option.none
    | c :: rest =>
      if c = Char.ofNat 34 then
        (parseJsonStrBody (f + 1) rest).map (fun pr => (Json.str pr.1, pr.2))
      else if c = Char.ofNat 91 then
        match skipJsonWs rest with
        | c2 :: r2 =>
          if c2 = Char.ofNat 93 then some (Json.arr .nil, r2)
          else
            match parseJsonElems f (skipJsonWs rest) with
            | some (xs, r3) => some (Json.arr xs, r3)
            | Option.none => Option.none
        | [] => Option.none
      else if c = Char.ofNat 123 then
        match skipJsonWs rest with
        | c2 :: r2 =>
          if c2 = Char.ofNat 125 then some (Json.obj .nil, r2)
          else
            match parseJsonMembers f (skipJsonWs rest) with
            | some (kvs, r3) => some (Json.obj kvs, r3)
            | Option.none => Option.none
        | [] => Option.none
      else if (c :: rest).take 4 = "null".data then
        some (Json.null, (c :: rest).drop 4)
      else if (c :: rest).take 4 = "true".data then
        some (Json.bool true, (c :: rest).drop 4)
      else if (c :: rest).take 5 = "false".data then
        some (Json.bool false, (c :: rest).drop 5)
      else
        (parseJsonInt (c :: rest)).map (fun pr => (Json.num pr.1, pr.2))

/-- Comma-separated array elements up to the closing bracket. -/
def parseJsonElems : Nat → List Char → Option (JsonElems × List Char)
  | 0, _ => Option.none
  | f + 1, s =>
    match parseJsonValue f s with
    | some (v, r) =>
      match skipJsonWs r with
      | c :: r2 =>
        if c = Char.ofNat 44 then
          (parseJsonElems f r2).map (fun pr => (JsonElems.cons v pr.1, pr.2))
        else if c = Char.ofNat 93 then some (JsonElems.cons v .nil, r2)
        else Option.none
      | [] => Option.none
    | Option.none => Option.none

/-- Comma-separated object members up to the closing brace. -/
def parseJsonMembers : Nat → List Char → Option (JsonMembers × List Char)
  | 0, _ => Option.none
  | f + 1, s =>
    match skipJsonWs s with
    | c :: rest =>
      if c = Char.ofNat 34 then
        match parseJsonStrBody (f + 1) rest with
        | some (k, r) =>
          match skipJsonWs r with
          | c2 :: r2 =>
            if c2 = Char.ofNat 58 then
              match parseJsonValue f r2 with
              | some (v, r3) =>
                match skipJsonWs r3 with
                | c3 :: r4 =>
                  if c3 = Char.ofNat 44 then
                    (parseJsonMembers f r4).map (fun pr => (JsonMembers.cons k v pr.1, pr.2))
                  else if c3 = Char.ofNat 125 then some (JsonMembers.cons k v .nil, r4)
                  else Option.none
                | [] => Option.none
              | Option.none => Option.none
            else Option.none
          | [] => Option.none
        | Option.none => Option.none
      else Option.none
    | [] => Option.none

end

/-- json.loads: a whole document, only whitespace may remain. -/
def jsonParse (s : List Char) : Option Json :=
  match parseJsonValue (s.length + 1) s with
  | some (v, rest) => if skipJsonWs rest = [] then some v else Option.none
  | Option.none => Option.none

/-- A Python value as it can appear at the "xdata"/"xtime" keys of the
payload dictionary handed to decrypt_xdata_payload. PyVal.none doubles
for a missing key, exactly as dict.get returns None. -/
inductive PyVal where
  | none : PyVal
  | int : Int → PyVal
  | str : List Char → PyVal
  | bool : Bool → PyVal
deriving DecidableEq

/-- Python truthiness of a PyVal. -/
def pyTruthy : PyVal → Bool
  | .none => false
  | .int n => n ≠ 0
  | .str s => s ≠ []
  | .bool b => b

/-- Python str() of a PyVal. -/
def pyToStr : PyVal → List Char
  | .str s => s
  | .int n => intDecChars n
  | .bool true => "True".data
  | .bool false => "False".data
  | .none => "None".data

/-- encrypt._safe_int with default=None: bools map to 0/1, ints pass
through, anything else is str()-ed, stripped and int()-parsed; every
failure yields the default. -/
def safeInt : PyVal → Option Int
  | .none => Option.none
  | .bool b => some (if b then 1 else 0)
  | .int n => some n
  | .str s =>
    let t := pyStrip s
    if t = [] then Option.none else pyParseInt t

/-- The result dictionary of encrypt_and_sign_xdata: the signature and the
encrypted body {xdata, xtime}. -/
structure SignedEnvelope where
  x_signature : List Char
  xdata : List Char
  xtime : Int
deriving DecidableEq

/-- encrypt.EncryptionService.encrypt_and_sign_xdata. The wall-clock read
int(time.time() * 1000) is passed in as xtime; Option.none models the
empty dictionary returned when encryption or signing produces an empty
string (the raised ValueError is caught in the function). -/
def encrypt_and_sign_xdata (C : BlockCipher) (env : CryptoEnv) (xtime : Int)
    (method path id_token : List Char) (payload : Json) : Option SignedEnvelope :=
  let plain_body := jsonDumps payload
  let xdata := encrypt_xdata C env plain_body xtime
  if xdata = [] then Option.none
  else
    let sig_time_sec := Int.fdiv xtime 1000
    let x_sig := make_x_signature env id_token method path sig_time_sec
    if x_sig = [] then Option.none
    else some ⟨x_sig, xdata, xtime⟩

/-- The values found at the "xdata" and "xtime" keys of the dictionary
handed to decrypt_xdata_payload. -/
structure EncPayload where
  xdata : PyVal
  xtime : PyVal

/-- encrypt.EncryptionService.decrypt_xdata_payload: coerce xtime, run the
multi-key helper decrypt, json-parse the plaintext and keep it only if it
is a JSON object; every failure path returns the empty dictionary. -/
def decrypt_xdata_payload (C : BlockCipher) (env : CryptoEnv) (p : EncPayload) : Json :=
  if ¬ pyTruthy p.xdata ∨ p.xtime = PyVal.none then Json.obj .nil
  else
    match safeInt p.xtime with
    | Option.none => Json.obj .nil
    | some n =>
      let plaintext := decrypt_xdata C env (pyToStr p.xdata) n
      match jsonParse plaintext with
      | Option.none => Json.obj .nil
      | some (Json.obj kvs) => Json.obj kvs
      | some _ => Json.obj .nil

/- ---------------------------------------------------------------------
Concrete instances used to exercise the definitions.
--------------------------------------------------------------------- -/

/-- A configuration with a valid 16-byte primary key and field key. -/
def envA : CryptoEnv :=
  ⟨"0123456789abcdef".data, [], Option.none, "fedcba9876543210".data, "sekrit".data⟩

/-- The configuration under which the C3 ciphertext was produced: its
primary key is the outgoing key K_old. -/
def envOldC3 : CryptoEnv :=
  ⟨"0123456789abcdef".data, [], Option.none, [], []⟩

/-- A rotated configuration: new primary key first, K_old in XDATA_KEYS. -/
def envNewC3 : CryptoEnv :=
  ⟨"3123456789abcdef".data, "0123456789abcdef".data, Option.none, [], []⟩

/-- A rotated configuration whose new primary key fails cleanly on the C3
ciphertext, with K_old second in the candidate list. -/
def envRotC3 : CryptoEnv :=
  ⟨"!123456789abcdef".data, "0123456789abcdef".data, Option.none, [], []⟩

/-- The C3 plaintext. -/
def pC3 : List Char := "\".&\",.&,\"$,&.$".data

/-- The C3 timestamp. -/
def tC3 : Int := 1700000000033

/-- The decryption pipeline of decrypt_circle_msisdn written as one
Option chain, following the spec wording: split the trailing 16
characters off as the IV, base64url-decode the remainder, AES-CBC-decrypt,
PKCS7-unpad, UTF-8-decode; none at every failure. -/
def circleDecryptChain (C : BlockCipher) (env : CryptoEnv) (blob : List Char) :
    Option (List Char) :=
  if blob = [] ∨ blob.length < 16 then Option.none
  else
    match keyBytes env.encrypted_field_key with
    | Option.none => Option.none
    | some key =>
      let ivHex := blob.drop (blob.length - 16)
      let ctB64 := blob.take (blob.length - 16)
      if ivHex.all (fun c => c.toNat < 128) then
        match urlsafeB64Decode (fixB64 ctB64) with
        | Option.none => Option.none
        | some ct =>
          if ct.length % 16 = 0 then
            match pkcs7Unpad (cbcDecrypt C key (ivHex.map Char.toNat) ct) with
            | Option.none => Option.none
            | some pt => utf8Decode pt
          else Option.none
      else Option.none

/- =====================================================================
Lemmas: byte ranges and lengths.
===================================================================== -/

theorem xorBytes_length (a b : Bytes) : (xorBytes a b).length = min a.length b.length := by
  simp [xorBytes]

theorem xorBytes_lt : ∀ (a b : Bytes), (∀ x ∈ a, x < 256) → (∀ x ∈ b, x < 256) →
    ∀ x ∈ xorBytes a b, x < 256
  | [], _, _, _ => by simp [xorBytes]
  | _ :: _, [], _, _ => by simp [xorBytes]
  | x :: xs, y :: ys, ha, hb => by
    intro z hz
    simp only [xorBytes, List.zipWith_cons_cons, List.mem_cons] at hz
    rcases hz with h | h
    · subst h
      have h256 : (256 : Nat) = 2 ^ 8 := by norm_num
      rw [h256]
      exact Nat.xor_lt_two_pow (by simpa [h256] using ha x (by simp))
        (by simpa [h256] using hb y (by simp))
    · exact xorBytes_lt xs ys (fun u hu => ha u (List.mem_cons_of_mem _ hu))
        (fun u hu => hb u (List.mem_cons_of_mem _ hu)) z h

theorem xorBytes_cancel (iv p : Bytes) (h : p.length ≤ iv.length) :
    xorBytes iv (xorBytes iv p) = p := by
  induction iv generalizing p with
  | nil =>
    cases p with
    | nil => rfl
    | cons y ys => simp at h
  | cons x xs ih =>
    cases p with
    | nil => rfl
    | cons y ys =>
      simp only [xorBytes, List.zipWith_cons_cons, List.cons.injEq]
      refine ⟨Nat.xor_cancel_left x y, ?_⟩
      have := ih ys (by simpa using h)
      simpa [xorBytes] using this

theorem word32Bytes_length (x : Nat) : (word32Bytes x).length = 4 := rfl

theorem word64Bytes_length (x : Nat) : (word64Bytes x).length = 8 := rfl

theorem word32Bytes_lt (x : Nat) : ∀ b ∈ word32Bytes x, b < 256 := by
  intro b hb
  simp only [word32Bytes, List.mem_cons, List.not_mem_nil, or_false] at hb
  rcases hb with h | h | h | h <;> subst h <;> exact Nat.mod_lt _ (by norm_num)

theorem sha256_length (m : Bytes) : (sha256 m).length = 32 := by
  simp [sha256, word32Bytes]

theorem sha512_length (m : Bytes) : (sha512 m).length = 64 := by
  simp [sha512, word64Bytes]

theorem sha256_lt (m : Bytes) : ∀ b ∈ sha256 m, b < 256 := by
  intro b hb
  simp only [sha256, List.mem_append] at hb
  rcases hb with ((((((h | h) | h) | h) | h) | h) | h) | h <;>
    exact word32Bytes_lt _ b h

theorem bytesToHex_cons (b : Nat) (bs : Bytes) :
    bytesToHex (b :: bs) = byteHexChars b ++ bytesToHex bs := rfl

theorem bytesToHex_length (bs : Bytes) : (bytesToHex bs).length = 2 * bs.length := by
  induction bs with
  | nil => rfl
  | cons b bs ih =>
    simp only [bytesToHex_cons, List.length_append, ih, byteHexChars, List.length_cons,
      List.length_nil]
    omega

theorem hexDigitChar_toNat :
    ∀ n < 16, (hexDigitChar n).toNat = (if n < 10 then 48 + n else 87 + n) := by
  decide

theorem hexDigitChar_ascii (n : Nat) (h : n < 16) : (hexDigitChar n).toNat < 128 := by
  rw [hexDigitChar_toNat n h]
  split <;> omega

theorem byteHexChars_ascii (b : Nat) (hb : b < 256) :
    ∀ c ∈ byteHexChars b, c.toNat < 128 := by
  intro c hc
  simp only [byteHexChars, List.mem_cons, List.not_mem_nil, or_false] at hc
  rcases hc with h | h <;> subst h
  · exact hexDigitChar_ascii _ (by omega)
  · exact hexDigitChar_ascii _ (by omega)

theorem bytesToHex_ascii (bs : Bytes) (h : ∀ b ∈ bs, b < 256) :
    ∀ c ∈ bytesToHex bs, c.toNat < 128 := by
  induction bs with
  | nil => simp [bytesToHex]
  | cons b bs ih =>
    intro c hc
    rw [bytesToHex_cons] at hc
    rcases List.mem_append.mp hc with h1 | h1
    · exact byteHexChars_ascii b (h b (by simp)) c h1
    · exact ih (fun u hu => h u (List.mem_cons_of_mem _ hu)) c h1

/- =====================================================================
Lemmas: derive_iv.
===================================================================== -/

theorem derive_iv_spec (t : Int) :
    derive_iv t = ((bytesToHex (sha256 (utf8Encode (intDecChars t)))).take 16).map Char.toNat := by
  unfold derive_iv
  have h : (((bytesToHex (sha256 (utf8Encode (intDecChars t)))).take 16).map Char.toNat).length
      = 16 := by
    rw [List.length_map, List.length_take, bytesToHex_length, sha256_length]
    omega
  rw [if_pos h]


theorem derive_iv_length (t : Int) : (derive_iv t).length = 16 := by
  rw [derive_iv_spec, List.length_map, List.length_take, bytesToHex_length, sha256_length]
  omega

theorem derive_iv_lt (t : Int) : ∀ b ∈ derive_iv t, b < 256 := by
  intro b hb
  rw [derive_iv_spec] at hb
  rcases List.mem_map.mp hb with ⟨c, hc, rfl⟩
  have := bytesToHex_ascii _ (sha256_lt _) c (List.take_subset _ _ hc)
  omega

/- =====================================================================
Lemmas: the shift cipher is a GoodCipher; HMAC digest lengths.
===================================================================== -/

theorem goodShiftCipher : GoodCipher shiftCipher := by
  intro key _ b hb hlt
  refine ⟨by simp [shiftCipher, hb], ?_, ?_⟩
  · intro x hx
    simp only [shiftCipher, List.mem_map] at hx
    rcases hx with ⟨y, _, rfl⟩
    exact Nat.mod_lt _ (by norm_num)
  · have hcomp : ∀ x ∈ b, ((x + key.headD 0) % 256 + 256 - key.headD 0 % 256) % 256 = x := by
      intro x hx
      have := hlt x hx
      omega
    simp only [shiftCipher, List.map_map, Function.comp]
    have h1 : List.map
        (fun x => ((x + key.headD 0) % 256 + 256 - key.headD 0 % 256) % 256) b
        = List.map id b := List.map_congr_left (fun x hx => hcomp x hx)
    simpa using h1

theorem hmacSha512_length (key msg : Bytes) : (hmacSha512 key msg).length = 64 := by
  simp [hmacSha512, sha512_length]

theorem hmacSha512Hex_length (k m : List Char) : (hmacSha512Hex k m).length = 128 := by
  simp [hmacSha512Hex, bytesToHex_length, hmacSha512_length]

/- =====================================================================
Lemmas: PKCS7 round-trip.
===================================================================== -/

theorem pkcs7Pad_length (bs : Bytes) :
    (pkcs7Pad bs).length = bs.length + (16 - bs.length % 16) := by
  simp [pkcs7Pad]

theorem pkcs7Pad_mod (bs : Bytes) : (pkcs7Pad bs).length % 16 = 0 := by
  rw [pkcs7Pad_length]
  omega

theorem pkcs7Pad_pos (bs : Bytes) : 0 < (pkcs7Pad bs).length := by
  rw [pkcs7Pad_length]
  omega

theorem pkcs7Pad_lt (bs : Bytes) (h : ∀ x ∈ bs, x < 256) : ∀ x ∈ pkcs7Pad bs, x < 256 := by
  intro x hx
  rcases List.mem_append.mp hx with h1 | h1
  · exact h x h1
  · have := (List.eq_of_mem_replicate h1)
    omega

theorem pkcs7Unpad_pad (bs : Bytes) : pkcs7Unpad (pkcs7Pad bs) = some bs := by
  have hp1 : 1 ≤ 16 - bs.length % 16 ∧ 16 - bs.length % 16 ≤ 16 := by omega
  unfold pkcs7Unpad
  rw [if_neg (by rw [pkcs7Pad_length]; omega)]
  rw [if_neg (by rw [pkcs7Pad_mod]; simp)]
  have hlast : (pkcs7Pad bs).getLast? = some (16 - bs.length % 16) := by
    unfold pkcs7Pad
    rw [List.getLast?_append, List.getLast?_replicate, if_neg (by omega)]
    rfl
  rw [hlast]
  show (if 16 - bs.length % 16 < 1 ∨ 16 < 16 - bs.length % 16 then Option.none
    else if (pkcs7Pad bs).drop ((pkcs7Pad bs).length - (16 - bs.length % 16))
        = List.replicate (16 - bs.length % 16) (16 - bs.length % 16) then
      some ((pkcs7Pad bs).take ((pkcs7Pad bs).length - (16 - bs.length % 16)))
    else Option.none) = some bs
  rw [if_neg (by omega)]
  have hdrop : (pkcs7Pad bs).drop ((pkcs7Pad bs).length - (16 - bs.length % 16))
      = List.replicate (16 - bs.length % 16) (16 - bs.length % 16) := by
    rw [pkcs7Pad_length]
    unfold pkcs7Pad
    have h2 : bs.length + (16 - bs.length % 16) - (16 - bs.length % 16) = bs.length := by
      omega
    rw [h2]
    exact List.drop_left bs _
  rw [if_pos hdrop]
  have htake : (pkcs7Pad bs).take ((pkcs7Pad bs).length - (16 - bs.length % 16)) = bs := by
    rw [pkcs7Pad_length]
    unfold pkcs7Pad
    have h2 : bs.length + (16 - bs.length % 16) - (16 - bs.length % 16) = bs.length := by
      omega
    rw [h2]
    exact List.take_left bs _
  rw [htake]

/- =====================================================================
Lemmas: UTF-8 round-trip.
===================================================================== -/

theorem char_toNat_lt (c : Char) : c.toNat < 1114112 := by
  have h := c.valid
  have he : c.toNat = c.val.toNat := rfl
  rcases h with h | ⟨h1, h2⟩ <;> omega

theorem char_not_surrogate (c : Char) : ¬ (55296 ≤ c.toNat ∧ c.toNat < 57344) := by
  have h := c.valid
  have he : c.toNat = c.val.toNat := rfl
  rcases h with h | ⟨h1, h2⟩ <;> omega

theorem utf8EncodeChar_lt (c : Char) : ∀ b ∈ utf8EncodeChar c, b < 256 := by
  have hlt := char_toNat_lt c
  intro b hb
  unfold utf8EncodeChar at hb
  split_ifs at hb <;>
    simp only [List.mem_cons, List.not_mem_nil, or_false] at hb <;>
    rcases hb with h | h | h | h <;> omega

theorem utf8Encode_cons (c : Char) (cs : List Char) :
    utf8Encode (c :: cs) = utf8EncodeChar c ++ utf8Encode cs := rfl

theorem utf8Encode_lt (s : List Char) : ∀ b ∈ utf8Encode s, b < 256 := by
  induction s with
  | nil => simp [utf8Encode]
  | cons c cs ih =>
    intro b hb
    rw [utf8Encode_cons] at hb
    rcases List.mem_append.mp hb with h | h
    · exact utf8EncodeChar_lt c b h
    · exact ih b h

theorem utf8EncodeChar_length_pos (c : Char) : 0 < (utf8EncodeChar c).length := by
  unfold utf8EncodeChar
  split_ifs <;> simp

theorem utf8DecodeOne_encodeChar (c : Char) (bs : Bytes) :
    utf8DecodeOne (utf8EncodeChar c ++ bs) = some (c.toNat, bs) := by
  have hlt := char_toNat_lt c
  have hsur := char_not_surrogate c
  by_cases h1 : c.toNat < 128
  · have henc : utf8EncodeChar c = [c.toNat] := by
      unfold utf8EncodeChar
      rw [if_pos h1]
    rw [henc]
    show utf8DecodeOne (c.toNat :: bs) = some (c.toNat, bs)
    simp only [utf8DecodeOne]
    rw [if_pos h1]
  by_cases h2 : c.toNat < 2048
  · have henc : utf8EncodeChar c = [192 + c.toNat / 64, 128 + c.toNat % 64] := by
      unfold utf8EncodeChar
      rw [if_neg h1, if_pos h2]
    rw [henc]
    show utf8DecodeOne ((192 + c.toNat / 64) :: (128 + c.toNat % 64) :: bs)
      = some (c.toNat, bs)
    simp only [utf8DecodeOne]
    rw [if_neg (by omega), if_neg (by omega), if_pos (by omega)]
    have hcont : isCont (128 + c.toNat % 64) = true := by
      unfold isCont
      simp only [decide_eq_true_eq]
      omega
    rw [if_pos hcont]
    have hval : (192 + c.toNat / 64 - 192) * 64 + (128 + c.toNat % 64 - 128) = c.toNat := by
      omega
    rw [hval]
  by_cases h3 : c.toNat < 65536
  · have henc : utf8EncodeChar c
        = [224 + c.toNat / 4096, 128 + c.toNat / 64 % 64, 128 + c.toNat % 64] := by
      unfold utf8EncodeChar
      rw [if_neg h1, if_neg h2, if_pos h3]
    rw [henc]
    show utf8DecodeOne ((224 + c.toNat / 4096) :: (128 + c.toNat / 64 % 64) ::
      (128 + c.toNat % 64) :: bs) = some (c.toNat, bs)
    simp only [utf8DecodeOne]
    rw [if_neg (by omega), if_neg (by omega), if_neg (by omega), if_pos (by omega)]
    have hval : (224 + c.toNat / 4096 - 224) * 4096 + (128 + c.toNat / 64 % 64 - 128) * 64 +
        (128 + c.toNat % 64 - 128) = c.toNat := by
      omega
    rw [hval]
    have hguard : (isCont (128 + c.toNat / 64 % 64) = true ∧ isCont (128 + c.toNat % 64) = true ∧
        2048 ≤ c.toNat ∧ ¬ (55296 ≤ c.toNat ∧ c.toNat < 57344)) := by
      refine ⟨?_, ?_, by omega, hsur⟩ <;>
        · unfold isCont
          simp only [decide_eq_true_eq]
          omega
    rw [if_pos (by simpa using hguard)]
  · have henc : utf8EncodeChar c
        = [240 + c.toNat / 262144, 128 + c.toNat / 4096 % 64, 128 + c.toNat / 64 % 64,
           128 + c.toNat % 64] := by
      unfold utf8EncodeChar
      rw [if_neg h1, if_neg h2, if_neg h3]
    rw [henc]
    show utf8DecodeOne ((240 + c.toNat / 262144) :: (128 + c.toNat / 4096 % 64) ::
      (128 + c.toNat / 64 % 64) :: (128 + c.toNat % 64) :: bs) = some (c.toNat, bs)
    simp only [utf8DecodeOne]
    rw [if_neg (by omega), if_neg (by omega), if_neg (by omega), if_neg (by omega),
      if_pos (by omega)]
    have hval : (240 + c.toNat / 262144 - 240) * 262144 +
        (128 + c.toNat / 4096 % 64 - 128) * 4096 + (128 + c.toNat / 64 % 64 - 128) * 64 +
        (128 + c.toNat % 64 - 128) = c.toNat := by
      omega
    rw [hval]
    have hguard : (isCont (128 + c.toNat / 4096 % 64) = true ∧
        isCont (128 + c.toNat / 64 % 64) = true ∧ isCont (128 + c.toNat % 64) = true ∧
        65536 ≤ c.toNat ∧ c.toNat < 1114112) := by
      refine ⟨?_, ?_, ?_, by omega, by omega⟩ <;>
        · unfold isCont
          simp only [decide_eq_true_eq]
          omega
    rw [if_pos (by simpa using hguard)]

theorem utf8DecodeGo_encode (s : List Char) :
    ∀ fuel, (utf8Encode s).length ≤ fuel → utf8DecodeGo fuel (utf8Encode s) = some s := by
  induction s with
  | nil => intro fuel _; cases fuel <;> rfl
  | cons c cs ih =>
    intro fuel hf
    rw [utf8Encode_cons] at hf ⊢
    have hpos := utf8EncodeChar_length_pos c
    obtain ⟨b, tl, hb⟩ : ∃ b tl, utf8EncodeChar c ++ utf8Encode cs = b :: tl := by
      cases he : utf8EncodeChar c with
      | nil => rw [he] at hpos; simp at hpos
      | cons x xs => exact ⟨x, xs ++ utf8Encode cs, by simp [he]⟩
    cases fuel with
    | zero =>
      exfalso
      rw [List.length_append] at hf
      omega
    | succ f =>
      rw [hb]
      show (match utf8DecodeOne (b :: tl) with
        | some (n, r) => (utf8DecodeGo f r).map (fun cs => Char.ofNat n :: cs)
        | Option.none => Option.none) = some (c :: cs)
      rw [← hb, utf8DecodeOne_encodeChar]
      have hrec : utf8DecodeGo f (utf8Encode cs) = some cs := by
        apply ih
        rw [List.length_append] at hf
        omega
      show (utf8DecodeGo f (utf8Encode cs)).map (fun cs => Char.ofNat c.toNat :: cs)
        = some (c :: cs)
      rw [hrec]
      simp [Char.ofNat_toNat]

theorem utf8Decode_encode (s : List Char) : utf8Decode (utf8Encode s) = some s :=
  utf8DecodeGo_encode s _ (Nat.le_refl _)

/- =====================================================================
Lemmas: base64 round-trip.
===================================================================== -/

theorem b64_char_facts : ∀ n < 64,
    b64DecChar (b64EncChar n) = some n ∧
    b64EncChar n ≠ Char.ofNat 61 ∧
    toStdB64Char (toUrlB64Char (b64EncChar n)) = b64EncChar n ∧
    isPySpace (toUrlB64Char (b64EncChar n)) = false := by
  decide

theorem b64_pad_facts :
    toStdB64Char (toUrlB64Char (Char.ofNat 61)) = Char.ofNat 61 ∧
    isPySpace (toUrlB64Char (Char.ofNat 61)) = false ∧
    (b64DecChar (Char.ofNat 61)).isSome = false := by
  decide

theorem b64Encode_chars : ∀ (bs : Bytes), (∀ x ∈ bs, x < 256) →
    ∀ c ∈ b64Encode bs, (∃ n, n < 64 ∧ c = b64EncChar n) ∨ c = Char.ofNat 61
  | [], _, c, hc => by simp [b64Encode] at hc
  | [a], h, c, hc => by
    have ha : a < 256 := h a (by simp)
    simp only [b64Encode, List.mem_cons, List.not_mem_nil, or_false] at hc
    rcases hc with rfl | rfl | rfl | rfl
    · exact Or.inl ⟨a / 4, by omega, rfl⟩
    · exact Or.inl ⟨a % 4 * 16, by omega, rfl⟩
    · exact Or.inr rfl
    · exact Or.inr rfl
  | [a, b], h, c, hc => by
    have ha : a < 256 := h a (by simp)
    have hb : b < 256 := h b (by simp)
    simp only [b64Encode, List.mem_cons, List.not_mem_nil, or_false] at hc
    rcases hc with rfl | rfl | rfl | rfl
    · exact Or.inl ⟨a / 4, by omega, rfl⟩
    · exact Or.inl ⟨a % 4 * 16 + b / 16, by omega, rfl⟩
    · exact Or.inl ⟨b % 16 * 4, by omega, rfl⟩
    · exact Or.inr rfl
  | a :: b :: c0 :: rest, h, c, hc => by
    have ha : a < 256 := h a (by simp)
    have hb : b < 256 := h b (by simp)
    have hc0 : c0 < 256 := h c0 (by simp)
    simp only [b64Encode, List.mem_cons] at hc
    rcases hc with rfl | rfl | rfl | rfl | hmem
    · exact Or.inl ⟨a / 4, by omega, rfl⟩
    · exact Or.inl ⟨a % 4 * 16 + b / 16, by omega, rfl⟩
    · exact Or.inl ⟨b % 16 * 4 + c0 / 64, by omega, rfl⟩
    · exact Or.inl ⟨c0 % 64, by omega, rfl⟩
    · exact b64Encode_chars rest
        (fun u hu => h u (by simp [hu])) c hmem

theorem b64Encode_length_mod : ∀ (bs : Bytes), (b64Encode bs).length % 4 = 0
  | [] => rfl
  | [_] => by simp [b64Encode]
  | [_, _] => by simp [b64Encode]
  | _ :: _ :: _ :: rest => by
    simp only [b64Encode, List.length_cons]
    have := b64Encode_length_mod rest
    omega

theorem b64Encode_ne_nil (bs : Bytes) (h : bs ≠ []) : b64Encode bs ≠ [] := by
  match bs with
  | [] => exact absurd rfl h
  | [_] => simp [b64Encode]
  | [_, _] => simp [b64Encode]
  | _ :: _ :: _ :: _ => simp [b64Encode]

theorem b64DecodeGroups_encode : ∀ (bs : Bytes), (∀ x ∈ bs, x < 256) →
    b64DecodeGroups (b64Encode bs) = some bs
  | [], _ => rfl
  | [a], h => by
    have ha : a < 256 := h a (by simp)
    have h1 := (b64_char_facts (a / 4) (by omega)).1
    have h2 := (b64_char_facts (a % 4 * 16) (by omega)).1
    show b64DecodeGroups
      [b64EncChar (a / 4), b64EncChar (a % 4 * 16), Char.ofNat 61, Char.ofNat 61] = some [a]
    simp only [b64DecodeGroups, h1, h2]
    rw [if_pos (by simp)]
    have hv : a / 4 * 4 + a % 4 * 16 / 16 = a := by omega
    rw [hv]
  | [a, b], h => by
    have ha : a < 256 := h a (by simp)
    have hb : b < 256 := h b (by simp)
    have h1 := (b64_char_facts (a / 4) (by omega)).1
    have h2 := (b64_char_facts (a % 4 * 16 + b / 16) (by omega)).1
    have h3 := (b64_char_facts (b % 16 * 4) (by omega)).1
    have h3ne := (b64_char_facts (b % 16 * 4) (by omega)).2.1
    show b64DecodeGroups [b64EncChar (a / 4), b64EncChar (a % 4 * 16 + b / 16),
      b64EncChar (b % 16 * 4), Char.ofNat 61] = some [a, b]
    simp only [b64DecodeGroups, h1, h2, h3]
    rw [if_neg (by simp [h3ne]), if_pos (by simp)]
    have hv1 : a / 4 * 4 + (a % 4 * 16 + b / 16) / 16 = a := by omega
    have hv2 : (a % 4 * 16 + b / 16) % 16 * 16 + b % 16 * 4 / 4 = b := by omega
    rw [hv1, hv2]
  | a :: b :: c0 :: rest, h => by
    have ha : a < 256 := h a (by simp)
    have hb : b < 256 := h b (by simp)
    have hc0 : c0 < 256 := h c0 (by simp)
    have h1 := (b64_char_facts (a / 4) (by omega)).1
    have h2 := (b64_char_facts (a % 4 * 16 + b / 16) (by omega)).1
    have h3 := (b64_char_facts (b % 16 * 4 + c0 / 64) (by omega)).1
    have h4 := (b64_char_facts (c0 % 64) (by omega)).1
    have h3ne := (b64_char_facts (b % 16 * 4 + c0 / 64) (by omega)).2.1
    have h4ne := (b64_char_facts (c0 % 64) (by omega)).2.1
    have hrec := b64DecodeGroups_encode rest (fun u hu => h u (by simp [hu]))
    show b64DecodeGroups (b64EncChar (a / 4) :: b64EncChar (a % 4 * 16 + b / 16) ::
      b64EncChar (b % 16 * 4 + c0 / 64) :: b64EncChar (c0 % 64) :: b64Encode rest)
      = some (a :: b :: c0 :: rest)
    simp only [b64DecodeGroups, h1, h2, h3, h4]
    rw [if_neg (by simp [h3ne]), if_neg (by simp [h4ne]), hrec]
    have hv1 : a / 4 * 4 + (a % 4 * 16 + b / 16) / 16 = a := by omega
    have hv2 : (a % 4 * 16 + b / 16) % 16 * 16 + (b % 16 * 4 + c0 / 64) / 4 = b := by omega
    have hv3 : (b % 16 * 4 + c0 / 64) % 4 * 64 + c0 % 64 = c0 := by omega
    simp [hv1, hv2, hv3]

theorem b64Decode_encode (bs : Bytes) (h : ∀ x ∈ bs, x < 256) :
    b64Decode (b64Encode bs) = some bs := by
  unfold b64Decode
  have hfilter : (b64Encode bs).filter
      (fun c => decide ((b64DecChar c).isSome = true ∨ c = Char.ofNat 61)) = b64Encode bs := by
    rw [List.filter_eq_self]
    intro c hc
    rcases b64Encode_chars bs h c hc with ⟨n, hn, rfl⟩ | rfl
    · simp [(b64_char_facts n hn).1]
    · simp
  rw [hfilter]
  exact b64DecodeGroups_encode bs h

theorem urlsafeB64Decode_encode (bs : Bytes) (h : ∀ x ∈ bs, x < 256) :
    urlsafeB64Decode (urlsafeB64Encode bs) = some bs := by
  unfold urlsafeB64Encode urlsafeB64Decode
  rw [List.map_map]
  have hmap : List.map (toStdB64Char ∘ toUrlB64Char) (b64Encode bs) = b64Encode bs := by
    have h1 : List.map (toStdB64Char ∘ toUrlB64Char) (b64Encode bs)
        = List.map id (b64Encode bs) := by
      apply List.map_congr_left
      intro c hc
      rcases b64Encode_chars bs h c hc with ⟨n, hn, rfl⟩ | rfl
      · exact (b64_char_facts n hn).2.2.1
      · exact b64_pad_facts.1
    simpa using h1
  rw [hmap]
  exact b64Decode_encode bs h

theorem urlsafeB64Encode_no_space (bs : Bytes) (h : ∀ x ∈ bs, x < 256) :
    ∀ c ∈ urlsafeB64Encode bs, isPySpace c = false := by
  intro c hc
  unfold urlsafeB64Encode at hc
  rcases List.mem_map.mp hc with ⟨c0, hc0, rfl⟩
  rcases b64Encode_chars bs h c0 hc0 with ⟨n, hn, rfl⟩ | rfl
  · exact (b64_char_facts n hn).2.2.2
  · exact b64_pad_facts.2.1

theorem fixB64_encode (bs : Bytes) (h : ∀ x ∈ bs, x < 256) (hne : bs ≠ []) :
    fixB64 (urlsafeB64Encode bs) = urlsafeB64Encode bs := by
  have henc_ne : urlsafeB64Encode bs ≠ [] := by
    unfold urlsafeB64Encode
    simpa using b64Encode_ne_nil bs hne
  have hrm : removePySpace (urlsafeB64Encode bs) = urlsafeB64Encode bs := by
    unfold removePySpace
    rw [List.filter_eq_self]
    intro c hc
    simp [urlsafeB64Encode_no_space bs h c hc]
  have hlen : (urlsafeB64Encode bs).length % 4 = 0 := by
    unfold urlsafeB64Encode
    rw [List.length_map]
    exact b64Encode_length_mod bs
  unfold fixB64
  rw [if_neg henc_ne]
  show removePySpace (urlsafeB64Encode bs) ++
    List.replicate ((4 - (removePySpace (urlsafeB64Encode bs)).length % 4) % 4)
      (Char.ofNat 61) = urlsafeB64Encode bs
  rw [hrm, hlen]
  simp

/- =====================================================================
Lemmas: CBC round-trip (for any GoodCipher).
===================================================================== -/

theorem cbcDecGo_cons (C : BlockCipher) (key : Bytes) (f2 : Nat) (iv : Bytes) (c : Nat)
    (rest : Bytes) :
    cbcDecGo C key (f2 + 1) iv (c :: rest) =
      xorBytes iv (C.decBlock key ((c :: rest).take 16)) ++
        cbcDecGo C key f2 ((c :: rest).take 16) ((c :: rest).drop 16) := rfl

theorem cbcGo_roundtrip : ∀ (fuel : Nat) (C : BlockCipher) (key iv pt : Bytes),
    GoodCipher C →
    (key.length = 16 ∨ key.length = 24 ∨ key.length = 32) →
    iv.length = 16 → (∀ x ∈ iv, x < 256) →
    pt.length % 16 = 0 → (∀ x ∈ pt, x < 256) → pt.length ≤ fuel →
    (cbcEncGo C key fuel iv pt).length = pt.length ∧
    (∀ x ∈ cbcEncGo C key fuel iv pt, x < 256) ∧
    (∀ fuel2, pt.length ≤ fuel2 →
      cbcDecGo C key fuel2 iv (cbcEncGo C key fuel iv pt) = pt) := by
  intro fuel
  induction fuel with
  | zero =>
    intro C key iv pt _ _ _ _ _ _ hle
    have hnil : pt = [] := List.eq_nil_of_length_eq_zero (by omega)
    subst hnil
    refine ⟨rfl, by simp [cbcEncGo], ?_⟩
    intro fuel2 _
    cases fuel2 <;> rfl
  | succ f ih =>
    intro C key iv pt hC hk hiv hivlt hmod hlt hle
    cases pt with
    | nil =>
      refine ⟨rfl, by simp [cbcEncGo], ?_⟩
      intro fuel2 _
      cases fuel2 <;> rfl
    | cons p rest =>
      have hlen16 : 16 ≤ (p :: rest).length := by
        have h0 : 0 < (p :: rest).length := by simp
        omega
      have htk_len : ((p :: rest).take 16).length = 16 := by
        rw [List.length_take]
        omega
      have htk_lt : ∀ x ∈ (p :: rest).take 16, x < 256 :=
        fun x hx => hlt x (List.take_subset _ _ hx)
      have hxb_len : (xorBytes iv ((p :: rest).take 16)).length = 16 := by
        rw [xorBytes_length, hiv, htk_len]
        omega
      have hxb_lt : ∀ x ∈ xorBytes iv ((p :: rest).take 16), x < 256 :=
        xorBytes_lt iv _ hivlt htk_lt
      obtain ⟨hblk_len, hblk_lt, hdec⟩ := hC key hk _ hxb_len hxb_lt
      have hdr_mod : ((p :: rest).drop 16).length % 16 = 0 := by
        rw [List.length_drop]
        omega
      have hdr_lt : ∀ x ∈ (p :: rest).drop 16, x < 256 :=
        fun x hx => hlt x (List.drop_subset _ _ hx)
      have hdr_le : ((p :: rest).drop 16).length ≤ f := by
        rw [List.length_drop]
        omega
      obtain ⟨ihlen, ihlt, ihdec⟩ :=
        ih C key (C.encBlock key (xorBytes iv ((p :: rest).take 16))) ((p :: rest).drop 16)
          hC hk hblk_len hblk_lt hdr_mod hdr_lt hdr_le
      have henc_eq : cbcEncGo C key (f + 1) iv (p :: rest)
          = C.encBlock key (xorBytes iv ((p :: rest).take 16)) ++
            cbcEncGo C key f (C.encBlock key (xorBytes iv ((p :: rest).take 16)))
              ((p :: rest).drop 16) := by
        simp only [cbcEncGo]
      refine ⟨?_, ?_, ?_⟩
      · rw [henc_eq, List.length_append, hblk_len, ihlen, List.length_drop]
        omega
      · intro x hx
        rw [henc_eq] at hx
        rcases List.mem_append.mp hx with hx | hx
        · exact hblk_lt x hx
        · exact ihlt x hx
      · intro fuel2 hf2
        obtain ⟨y, ys, hys⟩ : ∃ y ys,
            C.encBlock key (xorBytes iv ((p :: rest).take 16)) = y :: ys := by
          cases hb : C.encBlock key (xorBytes iv ((p :: rest).take 16)) with
          | nil => rw [hb] at hblk_len; simp at hblk_len
          | cons y ys => exact ⟨y, ys, rfl⟩
        cases fuel2 with
        | zero => omega
        | succ f2 =>
          rw [henc_eq, hys, List.cons_append, cbcDecGo_cons, ← List.cons_append, ← hys]
          rw [List.take_left' hblk_len, List.drop_left' hblk_len, hdec]
          rw [xorBytes_cancel iv _ (by rw [htk_len, hiv])]
          rw [ihdec f2 (by rw [List.length_drop]; omega)]
          exact List.take_append_drop 16 (p :: rest)

theorem cbcDecrypt_encrypt (C : BlockCipher) (key iv pt : Bytes) (hC : GoodCipher C)
    (hk : key.length = 16 ∨ key.length = 24 ∨ key.length = 32)
    (hiv : iv.length = 16) (hivlt : ∀ x ∈ iv, x < 256)
    (hmod : pt.length % 16 = 0) (hlt : ∀ x ∈ pt, x < 256) :
    cbcDecrypt C key iv (cbcEncrypt C key iv pt) = pt := by
  obtain ⟨hlen, _, hdec⟩ :=
    cbcGo_roundtrip pt.length C key iv pt hC hk hiv hivlt hmod hlt (Nat.le_refl _)
  unfold cbcEncrypt cbcDecrypt
  rw [hlen]
  exact hdec pt.length (Nat.le_refl _)

theorem cbcEncrypt_length (C : BlockCipher) (key iv pt : Bytes) (hC : GoodCipher C)
    (hk : key.length = 16 ∨ key.length = 24 ∨ key.length = 32)
    (hiv : iv.length = 16) (hivlt : ∀ x ∈ iv, x < 256)
    (hmod : pt.length % 16 = 0) (hlt : ∀ x ∈ pt, x < 256) :
    (cbcEncrypt C key iv pt).length = pt.length :=
  (cbcGo_roundtrip pt.length C key iv pt hC hk hiv hivlt hmod hlt (Nat.le_refl _)).1

theorem cbcEncrypt_lt (C : BlockCipher) (key iv pt : Bytes) (hC : GoodCipher C)
    (hk : key.length = 16 ∨ key.length = 24 ∨ key.length = 32)
    (hiv : iv.length = 16) (hivlt : ∀ x ∈ iv, x < 256)
    (hmod : pt.length % 16 = 0) (hlt : ∀ x ∈ pt, x < 256) :
    ∀ x ∈ cbcEncrypt C key iv pt, x < 256 :=
  (cbcGo_roundtrip pt.length C key iv pt hC hk hiv hivlt hmod hlt (Nat.le_refl _)).2.1

/- =====================================================================
Lemmas: key decoding, candidate list, xdata pipeline.
===================================================================== -/

theorem keyBytes_ne_nil (s : List Char) (k : Bytes) (h : keyBytes s = some k) : s ≠ [] := by
  intro he
  subst he
  simp [keyBytes] at h

theorem keyBytes_length (s : List Char) (k : Bytes) (h : keyBytes s = some k) :
    k.length = 16 ∨ k.length = 24 ∨ k.length = 32 := by
  unfold keyBytes at h
  by_cases he : s = []
  · rw [if_pos he] at h
    exact absurd h (by simp)
  · rw [if_neg he] at h
    rcases hm : keyBytesDecode (pyStrip s) with _ | bs
    · rw [hm] at h
      exact absurd h (by simp)
    · rw [hm] at h
      have h2 : (if bs.length = 16 ∨ bs.length = 24 ∨ bs.length = 32 then some bs
          else Option.none) = some k := h
      by_cases hc : bs.length = 16 ∨ bs.length = 24 ∨ bs.length = 32
      · rw [if_pos hc] at h2
        cases h2
        exact hc
      · rw [if_neg hc] at h2
        exact absurd h2 (by simp)

theorem iterCandidateKeys_head (env : CryptoEnv) (k : Bytes)
    (h : keyBytes env.xdata_key = some k) :
    ∃ rest, iterCandidateKeys env = k :: rest := by
  have hne : env.xdata_key ≠ [] := keyBytes_ne_nil _ _ h
  unfold iterCandidateKeys
  rw [if_pos hne]
  simp only [pushOne, h]
  apply Exists.intro
  simp
  rfl

theorem encrypt_xdata_eq (C : BlockCipher) (env : CryptoEnv) (P : List Char) (t : Int)
    (k : Bytes) (hP : P ≠ []) (hk : keyBytes env.xdata_key = some k) :
    encrypt_xdata C env P t
      = urlsafeB64Encode (cbcEncrypt C k (derive_iv t) (pkcs7Pad (utf8Encode P))) := by
  unfold encrypt_xdata
  rw [if_neg hP, hk]

theorem tryDecrypt_encrypt (C : BlockCipher) (key : Bytes) (P : List Char) (t : Int)
    (hC : GoodCipher C) (hk : key.length = 16 ∨ key.length = 24 ∨ key.length = 32) :
    tryDecryptWithKey C
      (urlsafeB64Encode (cbcEncrypt C key (derive_iv t) (pkcs7Pad (utf8Encode P)))) t key
      = some P := by
  have hpad_mod := pkcs7Pad_mod (utf8Encode P)
  have hpad_lt := pkcs7Pad_lt (utf8Encode P) (utf8Encode_lt P)
  have hiv_len := derive_iv_length t
  have hiv_lt := derive_iv_lt t
  have hct_lt := cbcEncrypt_lt C key (derive_iv t) (pkcs7Pad (utf8Encode P))
    hC hk hiv_len hiv_lt hpad_mod hpad_lt
  have hct_len := cbcEncrypt_length C key (derive_iv t) (pkcs7Pad (utf8Encode P))
    hC hk hiv_len hiv_lt hpad_mod hpad_lt
  have hct_ne : cbcEncrypt C key (derive_iv t) (pkcs7Pad (utf8Encode P)) ≠ [] := by
    intro hnil
    have := pkcs7Pad_pos (utf8Encode P)
    rw [← hct_len, hnil] at this
    simp at this
  unfold tryDecryptWithKey
  rw [fixB64_encode _ hct_lt hct_ne, urlsafeB64Decode_encode _ hct_lt]
  show (if (cbcEncrypt C key (derive_iv t) (pkcs7Pad (utf8Encode P))).length % 16 = 0 then
      match pkcs7Unpad (cbcDecrypt C key (derive_iv t)
        (cbcEncrypt C key (derive_iv t) (pkcs7Pad (utf8Encode P)))) with
      | Option.none => Option.none
      | some pt => utf8Decode pt
    else Option.none) = some P
  rw [if_pos (by rw [hct_len]; exact hpad_mod)]
  rw [cbcDecrypt_encrypt C key (derive_iv t) (pkcs7Pad (utf8Encode P))
    hC hk hiv_len hiv_lt hpad_mod hpad_lt]
  rw [pkcs7Unpad_pad]
  show utf8Decode (utf8Encode P) = some P
  exact utf8Decode_encode P

theorem encrypt_xdata_ne_nil (C : BlockCipher) (env : CryptoEnv) (P : List Char) (t : Int)
    (k : Bytes) (hC : GoodCipher C) (hP : P ≠ []) (hk : keyBytes env.xdata_key = some k) :
    encrypt_xdata C env P t ≠ [] := by
  rw [encrypt_xdata_eq C env P t k hP hk]
  have hct_len := cbcEncrypt_length C k (derive_iv t) (pkcs7Pad (utf8Encode P))
    hC (keyBytes_length _ _ hk) (derive_iv_length t) (derive_iv_lt t)
    (pkcs7Pad_mod _) (pkcs7Pad_lt _ (utf8Encode_lt P))
  have hct_ne : cbcEncrypt C k (derive_iv t) (pkcs7Pad (utf8Encode P)) ≠ [] := by
    intro hnil
    have := pkcs7Pad_pos (utf8Encode P)
    rw [← hct_len, hnil] at this
    simp at this
  unfold urlsafeB64Encode
  simpa using b64Encode_ne_nil _ hct_ne

theorem decrypt_xdata_head (C : BlockCipher) (env : CryptoEnv) (xdata P : List Char)
    (t : Int) (k : Bytes) (rest : List Bytes)
    (hcand : iterCandidateKeys env = k :: rest) (hxne : xdata ≠ [])
    (h : tryDecryptWithKey C xdata t k = some P) :
    decrypt_xdata C env xdata t = P := by
  unfold decrypt_xdata
  rw [if_neg hxne, hcand]
  unfold firstDecrypt
  rw [h]

/- =====================================================================
Claim C1: envelope round-trip with the primary key.
===================================================================== -/

/-- C1: for every non-empty plaintext string, every valid primary xdata
key and every integer millisecond timestamp, decrypting the output of
encrypt_xdata with the same timestamp — the same key being the first
decryption candidate — returns the plaintext. -/
theorem xdata_roundtrip (C : BlockCipher) (env : CryptoEnv) (P : List Char) (t : Int)
    (k : Bytes) (hC : GoodCipher C) (hP : P ≠ [])
    (hk : keyBytes env.xdata_key = some k) :
    decrypt_xdata C env (encrypt_xdata C env P t) t = P := by
  obtain ⟨rest, hcand⟩ := iterCandidateKeys_head env k hk
  refine decrypt_xdata_head C env _ P t k rest hcand
    (encrypt_xdata_ne_nil C env P t k hC hP hk) ?_
  rw [encrypt_xdata_eq C env P t k hP hk]
  exact tryDecrypt_encrypt C k P t hC (keyBytes_length _ _ hk)

/-- C1 witness: the round-trip at a concrete plaintext, key and timestamp. -/
theorem xdata_roundtrip_witness :
    decrypt_xdata shiftCipher envA
      (encrypt_xdata shiftCipher envA "hello world".data 1700000000000) 1700000000000
      = "hello world".data :=
  xdata_roundtrip shiftCipher envA "hello world".data 1700000000000
    [48, 49, 50, 51, 52, 53, 54, 55, 56, 57, 97, 98, 99, 100, 101, 102]
    goodShiftCipher (by decide) (by decide)

/- =====================================================================
Claim C3: key rotation.
===================================================================== -/

theorem firstDecrypt_skip (C : BlockCipher) (x : List Char) (t : Int) :
    ∀ (l1 ks : List Bytes), (∀ k' ∈ l1, tryDecryptWithKey C x t k' = Option.none) →
      firstDecrypt C x t (l1 ++ ks) = firstDecrypt C x t ks
  | [], _, _ => rfl
  | k :: l1, ks, hfail => by
    show (match tryDecryptWithKey C x t k with
      | some pt => some pt
      | Option.none => firstDecrypt C x t (l1 ++ ks)) = firstDecrypt C x t ks
    rw [hfail k (by simp)]
    exact firstDecrypt_skip C x t l1 ks (fun u hu => hfail u (by simp [hu]))

/-- C3 (counterexample to the claim as stated): a payload encrypted under
the valid key K_old, with K_old present in the decrypt candidate list (in
second position), is NOT recovered: the newer first candidate happens to
produce a valid padding and UTF-8 decode, and the first success wins. -/
theorem key_rotation_counterexample :
    GoodCipher shiftCipher ∧
    keyBytes envOldC3.xdata_key
      = some [48, 49, 50, 51, 52, 53, 54, 55, 56, 57, 97, 98, 99, 100, 101, 102] ∧
    [48, 49, 50, 51, 52, 53, 54, 55, 56, 57, 97, 98, 99, 100, 101, 102]
      ∈ iterCandidateKeys envNewC3 ∧
    decrypt_xdata shiftCipher envNewC3 (encrypt_xdata shiftCipher envOldC3 pC3 tC3) tC3
      ≠ pC3 :=
  ⟨goodShiftCipher, by decide, by decide, by decide⟩

/-- C3 (amended): if the payload was encrypted under K_old, K_old appears
anywhere in the candidate list of the decrypting configuration, and every
candidate tried before K_old fails its trial decryption (in particular
when K_old is the first candidate), then decrypt_xdata with the same
timestamp recovers the original payload. -/
theorem key_rotation_recovers (C : BlockCipher) (envOld envNew : CryptoEnv)
    (P : List Char) (t : Int) (kOld : Bytes) (l1 l2 : List Bytes)
    (hC : GoodCipher C) (hP : P ≠ [])
    (hkOld : keyBytes envOld.xdata_key = some kOld)
    (hsplit : iterCandidateKeys envNew = l1 ++ kOld :: l2)
    (hfail : ∀ k' ∈ l1,
      tryDecryptWithKey C (encrypt_xdata C envOld P t) t k' = Option.none) :
    decrypt_xdata C envNew (encrypt_xdata C envOld P t) t = P := by
  have hne := encrypt_xdata_ne_nil C envOld P t kOld hC hP hkOld
  have hok : tryDecryptWithKey C (encrypt_xdata C envOld P t) t kOld = some P := by
    rw [encrypt_xdata_eq C envOld P t kOld hP hkOld]
    exact tryDecrypt_encrypt C kOld P t hC (keyBytes_length _ _ hkOld)
  unfold decrypt_xdata
  rw [if_neg hne, hsplit, firstDecrypt_skip C _ t l1 (kOld :: l2) hfail]
  unfold firstDecrypt
  rw [hok]

/-- C3 witness: a rotated configuration whose first candidate fails, with
K_old second; the original payload is recovered. -/
theorem key_rotation_recovers_witness :
    decrypt_xdata shiftCipher envRotC3 (encrypt_xdata shiftCipher envOldC3 pC3 tC3) tC3
      = pC3 :=
  key_rotation_recovers shiftCipher envOldC3 envRotC3 pC3 tC3
    [48, 49, 50, 51, 52, 53, 54, 55, 56, 57, 97, 98, 99, 100, 101, 102]
    [[33, 49, 50, 51, 52, 53, 54, 55, 56, 57, 97, 98, 99, 100, 101, 102]] []
    goodShiftCipher (by decide) (by decide) (by decide) (by decide)

/- =====================================================================
Claim C7: Circle MSISDN round-trip.
===================================================================== -/

theorem hexDigitVal_ascii (c : Char) (h : (hexDigitVal c).isSome) : c.toNat < 128 := by
  simp only [hexDigitVal] at h
  split_ifs at h with h1 h2 h3
  · omega
  · omega
  · omega
  · simp at h

theorem encrypt_circle_eq (C : BlockCipher) (env : CryptoEnv) (ivHex msisdn : List Char)
    (k : Bytes) (hm : msisdn ≠ []) (hk : keyBytes env.encrypted_field_key = some k)
    (hivlen : ivHex.length = 16) (hivascii : ∀ c ∈ ivHex, c.toNat < 128) :
    encrypt_circle_msisdn C env ivHex msisdn
      = urlsafeB64Encode (cbcEncrypt C k (ivHex.map Char.toNat)
          (pkcs7Pad (utf8Encode msisdn))) ++ ivHex := by
  unfold encrypt_circle_msisdn
  rw [if_neg hm, hk]
  show (if ivHex.length = 16 ∧ ivHex.all (fun c => decide (c.toNat < 128)) then
      urlsafeB64Encode (cbcEncrypt C k (ivHex.map Char.toNat)
        (pkcs7Pad (utf8Encode msisdn))) ++ ivHex
    else []) = _
  rw [if_pos ⟨hivlen, by rw [List.all_eq_true]; intro c hc; simpa using hivascii c hc⟩]

/-- C7: for every non-empty msisdn, valid ENCRYPTED_FIELD_KEY, and
16-hex-character IV chosen at encryption time, decrypting the encrypted
msisdn returns the original. -/
theorem circle_roundtrip (C : BlockCipher) (env : CryptoEnv) (ivHex msisdn : List Char)
    (k : Bytes) (hC : GoodCipher C) (hm : msisdn ≠ [])
    (hk : keyBytes env.encrypted_field_key = some k)
    (hivlen : ivHex.length = 16) (hivhex : ∀ c ∈ ivHex, (hexDigitVal c).isSome) :
    decrypt_circle_msisdn C env (encrypt_circle_msisdn C env ivHex msisdn) = msisdn := by
  have hivascii : ∀ c ∈ ivHex, c.toNat < 128 :=
    fun c hc => hexDigitVal_ascii c (hivhex c hc)
  have hkl := keyBytes_length _ _ hk
  have hiv_len : (ivHex.map Char.toNat).length = 16 := by rw [List.length_map, hivlen]
  have hiv_lt : ∀ x ∈ ivHex.map Char.toNat, x < 256 := by
    intro x hx
    rcases List.mem_map.mp hx with ⟨c, hc, rfl⟩
    have := hivascii c hc
    omega
  have hpad_mod := pkcs7Pad_mod (utf8Encode msisdn)
  have hpad_lt := pkcs7Pad_lt (utf8Encode msisdn) (utf8Encode_lt msisdn)
  have hct_lt := cbcEncrypt_lt C k (ivHex.map Char.toNat) (pkcs7Pad (utf8Encode msisdn))
    hC hkl hiv_len hiv_lt hpad_mod hpad_lt
  have hct_len := cbcEncrypt_length C k (ivHex.map Char.toNat) (pkcs7Pad (utf8Encode msisdn))
    hC hkl hiv_len hiv_lt hpad_mod hpad_lt
  have hct_ne : cbcEncrypt C k (ivHex.map Char.toNat) (pkcs7Pad (utf8Encode msisdn)) ≠ [] := by
    intro hnil
    have := pkcs7Pad_pos (utf8Encode msisdn)
    rw [← hct_len, hnil] at this
    simp at this
  rw [encrypt_circle_eq C env ivHex msisdn k hm hk hivlen hivascii]
  have hblen : (urlsafeB64Encode (cbcEncrypt C k (ivHex.map Char.toNat)
      (pkcs7Pad (utf8Encode msisdn))) ++ ivHex).length
      = (urlsafeB64Encode (cbcEncrypt C k (ivHex.map Char.toNat)
          (pkcs7Pad (utf8Encode msisdn)))).length + 16 := by
    rw [List.length_append, hivlen]
  have hb_ne : urlsafeB64Encode (cbcEncrypt C k (ivHex.map Char.toNat)
      (pkcs7Pad (utf8Encode msisdn))) ++ ivHex ≠ [] := by
    apply List.ne_nil_of_length_pos
    rw [hblen]
    omega
  unfold decrypt_circle_msisdn
  rw [if_neg (by push_neg; exact ⟨hb_ne, by rw [hblen]; omega⟩)]
  rw [hk]
  show (if (( (urlsafeB64Encode (cbcEncrypt C k (ivHex.map Char.toNat)
        (pkcs7Pad (utf8Encode msisdn))) ++ ivHex).drop
        ((urlsafeB64Encode (cbcEncrypt C k (ivHex.map Char.toNat)
          (pkcs7Pad (utf8Encode msisdn))) ++ ivHex).length - 16)).all
        (fun c => decide (c.toNat < 128))) then _ else []) = msisdn
  have hsplit : (urlsafeB64Encode (cbcEncrypt C k (ivHex.map Char.toNat)
      (pkcs7Pad (utf8Encode msisdn))) ++ ivHex).length - 16
      = (urlsafeB64Encode (cbcEncrypt C k (ivHex.map Char.toNat)
          (pkcs7Pad (utf8Encode msisdn)))).length := by
    rw [hblen]
    omega
  rw [hsplit, List.drop_left, List.take_left]
  rw [if_pos (by rw [List.all_eq_true]; intro c hc; simpa using hivascii c hc)]
  rw [fixB64_encode _ hct_lt hct_ne, urlsafeB64Decode_encode _ hct_lt]
  show (if (cbcEncrypt C k (ivHex.map Char.toNat)
      (pkcs7Pad (utf8Encode msisdn))).length % 16 = 0 then
      match pkcs7Unpad (cbcDecrypt C k (ivHex.map Char.toNat)
        (cbcEncrypt C k (ivHex.map Char.toNat) (pkcs7Pad (utf8Encode msisdn)))) with
      | Option.none => []
      | some pt =>
        match utf8Decode pt with
        | some s => s
        | Option.none => []
    else []) = msisdn
  rw [if_pos (by rw [hct_len]; exact hpad_mod)]
  rw [cbcDecrypt_encrypt C k (ivHex.map Char.toNat) (pkcs7Pad (utf8Encode msisdn))
    hC hkl hiv_len hiv_lt hpad_mod hpad_lt]
  rw [pkcs7Unpad_pad]
  show (match utf8Decode (utf8Encode msisdn) with
    | some s => s
    | Option.none => []) = msisdn
  rw [utf8Decode_encode]

/-- C7 witness: the round-trip at the msisdn named in the spec, a concrete
hex IV and a valid concrete field key. -/
theorem circle_roundtrip_witness :
    decrypt_circle_msisdn shiftCipher envA
      (encrypt_circle_msisdn shiftCipher envA "00112233445566aa".data "6281234567890".data)
      = "6281234567890".data :=
  circle_roundtrip shiftCipher envA "00112233445566aa".data "6281234567890".data
    [102, 101, 100, 99, 98, 97, 57, 56, 55, 54, 53, 52, 51, 50, 49, 48]
    goodShiftCipher (by decide) (by decide) (by decide) (by decide)

/- =====================================================================
Claim C8: Circle MSISDN decrypt fails soft.
===================================================================== -/

/-- C8: decrypt_circle_msisdn equals the Option-valued decryption chain
with the empty string substituted for every failure: on any error — short
blob, invalid key, base64 failure, wrong ciphertext length, bad padding,
non-UTF-8 plaintext — it returns the empty string, and (being a total
function equal to a getD) it never raises past the codec boundary. -/
theorem circle_decrypt_fails_soft (C : BlockCipher) (env : CryptoEnv) (blob : List Char) :
    decrypt_circle_msisdn C env blob = (circleDecryptChain C env blob).getD [] := by
  unfold decrypt_circle_msisdn circleDecryptChain
  dsimp only
  repeat' split
  all_goals first
  | rfl
  | simp_all

/- =====================================================================
Lemmas: decimal printing and parsing round-trip; Python strip.
===================================================================== -/

theorem char_toNat_ofNat_small (m : Nat) (h : m < 55296) : (Char.ofNat m).toNat = m := by
  unfold Char.ofNat
  split_ifs with hv
  · rfl
  · exact absurd (Or.inl (by omega)) hv

theorem natDecCharsGo_digits : ∀ (fuel : Nat) (n : Nat) (acc : List Char),
    (∀ c ∈ acc, 48 ≤ c.toNat ∧ c.toNat ≤ 57) →
    ∀ c ∈ natDecCharsGo fuel n acc, 48 ≤ c.toNat ∧ c.toNat ≤ 57
  | 0, _, _, hacc, c, hc => hacc c hc
  | fuel + 1, n, acc, hacc, c, hc => by
    unfold natDecCharsGo at hc
    by_cases hn : n = 0
    · rw [if_pos hn] at hc
      exact hacc c hc
    · rw [if_neg hn] at hc
      refine natDecCharsGo_digits fuel (n / 10) _ ?_ c hc
      intro c2 hc2
      rcases List.mem_cons.mp hc2 with rfl | h2
      · have he : (Char.ofNat (48 + n % 10)).toNat = 48 + n % 10 :=
          char_toNat_ofNat_small _ (by omega)
        omega
      · exact hacc c2 h2

theorem natDecChars_digits (n : Nat) :
    ∀ c ∈ natDecChars n, 48 ≤ c.toNat ∧ c.toNat ≤ 57 := by
  unfold natDecChars
  by_cases hn : n = 0
  · rw [if_pos hn]
    intro c hc
    simp only [List.mem_cons, List.not_mem_nil, or_false] at hc
    subst hc
    decide
  · rw [if_neg hn]
    exact natDecCharsGo_digits n n [] (by simp)

theorem natDecCharsGo_shift : ∀ (fuel : Nat) (n : Nat) (acc : List Char),
    natDecCharsGo fuel n acc = natDecCharsGo fuel n [] ++ acc
  | 0, _, _ => rfl
  | fuel + 1, n, acc => by
    unfold natDecCharsGo
    by_cases hn : n = 0
    · rw [if_pos hn, if_pos hn]
      rfl
    · rw [if_neg hn, if_neg hn]
      rw [natDecCharsGo_shift fuel (n / 10) (Char.ofNat (48 + n % 10) :: acc),
        natDecCharsGo_shift fuel (n / 10) [Char.ofNat (48 + n % 10)]]
      simp

theorem natDecChars_ne_nil (n : Nat) : natDecChars n ≠ [] := by
  unfold natDecChars
  by_cases hn : n = 0
  · rw [if_pos hn]
    simp
  · rw [if_neg hn]
    cases n with
    | zero => exact absurd rfl hn
    | succ m =>
      unfold natDecCharsGo
      rw [if_neg hn, natDecCharsGo_shift]
      simp

theorem digitsVal_foldl (cs : List Char) : ∀ a : Nat,
    cs.foldl (fun a c => a * 10 + (c.toNat - 48)) a = a * 10 ^ cs.length + digitsVal cs := by
  induction cs with
  | nil => intro a; simp [digitsVal]
  | cons c cs ih =>
    intro a
    show cs.foldl (fun a c => a * 10 + (c.toNat - 48)) (a * 10 + (c.toNat - 48))
      = a * 10 ^ (c :: cs).length + digitsVal (c :: cs)
    rw [ih]
    have h2 : digitsVal (c :: cs)
        = (c.toNat - 48) * 10 ^ cs.length + digitsVal cs := by
      show cs.foldl (fun a c => a * 10 + (c.toNat - 48)) (0 * 10 + (c.toNat - 48))
        = (c.toNat - 48) * 10 ^ cs.length + digitsVal cs
      rw [ih]
      ring_nf
    rw [h2, List.length_cons]
    ring

theorem digitsVal_go : ∀ (fuel n : Nat) (acc : List Char), n ≤ fuel →
    digitsVal (natDecCharsGo fuel n acc) = n * 10 ^ acc.length + digitsVal acc
  | 0, n, acc, hle => by
    have : n = 0 := by omega
    subst this
    simp [natDecCharsGo]
  | fuel + 1, n, acc, hle => by
    unfold natDecCharsGo
    by_cases hn : n = 0
    · rw [if_pos hn, hn]
      simp
    · rw [if_neg hn]
      rw [digitsVal_go fuel (n / 10) (Char.ofNat (48 + n % 10) :: acc) (by omega)]
      have hd : digitsVal (Char.ofNat (48 + n % 10) :: acc)
          = (n % 10) * 10 ^ acc.length + digitsVal acc := by
        show acc.foldl (fun a c => a * 10 + (c.toNat - 48))
          (0 * 10 + ((Char.ofNat (48 + n % 10)).toNat - 48))
          = (n % 10) * 10 ^ acc.length + digitsVal acc
        rw [digitsVal_foldl, char_toNat_ofNat_small _ (by omega)]
        have : 48 + n % 10 - 48 = n % 10 := by omega
        rw [this]
        ring_nf
      rw [hd, List.length_cons]
      have h10 : n / 10 * 10 + n % 10 = n := by omega
      calc n / 10 * 10 ^ (acc.length + 1) + ((n % 10) * 10 ^ acc.length + digitsVal acc)
          = (n / 10 * 10 + n % 10) * 10 ^ acc.length + digitsVal acc := by ring
        _ = n * 10 ^ acc.length + digitsVal acc := by rw [h10]

theorem digitsVal_natDecChars (n : Nat) : digitsVal (natDecChars n) = n := by
  unfold natDecChars
  by_cases hn : n = 0
  · rw [if_pos hn, hn]
    decide
  · rw [if_neg hn, digitsVal_go n n [] (Nat.le_refl n)]
    simp [digitsVal]

theorem pyParseInt_natDecChars (m : Nat) :
    pyParseInt (natDecChars m) = some (Int.ofNat m) := by
  have hdig := natDecChars_digits m
  obtain ⟨c, cs, hcons⟩ : ∃ c cs, natDecChars m = c :: cs := by
    cases h : natDecChars m with
    | nil => exact absurd h (natDecChars_ne_nil m)
    | cons c cs => exact ⟨c, cs, rfl⟩
  rw [hcons]
  have hc : 48 ≤ c.toNat ∧ c.toNat ≤ 57 := hdig c (by rw [hcons]; simp)
  unfold pyParseInt
  dsimp only
  rw [if_neg (by omega), if_neg (by omega)]
  have hall : (c :: cs).all (fun c => decide (48 ≤ c.toNat ∧ c.toNat ≤ 57)) = true := by
    rw [List.all_eq_true]
    intro c2 hc2
    simp only [decide_eq_true_eq]
    exact hdig c2 (by rw [hcons]; exact hc2)
  rw [if_pos ⟨by simp, hall⟩]
  have : digitsVal (c :: cs) = m := by
    rw [← hcons]
    exact digitsVal_natDecChars m
  rw [this]
  rfl

theorem pyParseInt_intDecChars (i : Int) : pyParseInt (intDecChars i) = some i := by
  unfold intDecChars
  by_cases hi : i < 0
  · rw [if_pos hi]
    have hdig := natDecChars_digits i.natAbs
    have hne := natDecChars_ne_nil i.natAbs
    unfold pyParseInt
    dsimp only
    have h45 : (Char.ofNat 45).toNat = 45 := by decide
    rw [if_neg (by rw [h45]; omega), if_pos (by rw [h45])]
    have hall : (natDecChars i.natAbs).all
        (fun c => decide (48 ≤ c.toNat ∧ c.toNat ≤ 57)) = true := by
      rw [List.all_eq_true]
      intro c2 hc2
      simp only [decide_eq_true_eq]
      exact hdig c2 hc2
    rw [if_pos ⟨hne, hall⟩]
    show some (-(Int.ofNat (digitsVal (natDecChars i.natAbs)))) = some i
    rw [digitsVal_natDecChars]
    congr 1
    rw [Int.ofNat_eq_natCast]
    omega
  · rw [if_neg hi, pyParseInt_natDecChars]
    congr 1
    rw [Int.ofNat_eq_natCast]
    omega

theorem pyStrip_no_space (d : List Char) (c : Char) (cl : Char) (hd : d ≠ [])
    (hhead : d.head? = some c) (hc : isPySpace c = false)
    (hlast : d.getLast? = some cl) (hcl : isPySpace cl = false) :
    pyStrip d = d := by
  unfold pyStrip
  obtain ⟨c0, cs, rfl⟩ : ∃ c0 cs, d = c0 :: cs := by
    cases d with
    | nil => exact absurd rfl hd
    | cons c0 cs => exact ⟨c0, cs, rfl⟩
  have hc0 : c0 = c := by
    simp only [List.head?_cons, Option.some.injEq] at hhead
    exact hhead
  subst hc0
  rw [List.dropWhile_cons, if_neg (by simp [hc])]
  obtain ⟨l0, hl0⟩ : ∃ l0, (c0 :: cs).reverse = cl :: l0 := by
    cases hrev : (c0 :: cs).reverse with
    | nil =>
      exfalso
      have hlen := congrArg List.length hrev
      simp at hlen
    | cons x l0 =>
      have : (c0 :: cs).getLast? = some x := by
        rw [List.getLast?_eq_head?_reverse, hrev]
        rfl
      rw [hlast] at this
      cases this
      exact ⟨l0, rfl⟩
  rw [hl0, List.dropWhile_cons, if_neg (by simp [hcl]), ← hl0]
  simp

theorem pyStrip_wrap (wsl wsr d : List Char) (c : Char) (cl : Char)
    (hl : ∀ x ∈ wsl, isPySpace x = true) (hr : ∀ x ∈ wsr, isPySpace x = true)
    (hd : d ≠ []) (hhead : d.head? = some c) (hc : isPySpace c = false)
    (hlast : d.getLast? = some cl) (hcl : isPySpace cl = false) :
    pyStrip (wsl ++ d ++ wsr) = d := by
  obtain ⟨c0, cs, hd_eq⟩ : ∃ c0 cs, d = c0 :: cs := by
    cases d with
    | nil => exact absurd rfl hd
    | cons c0 cs => exact ⟨c0, cs, rfl⟩
  have hc0 : c0 = c := by
    rw [hd_eq] at hhead
    simp only [List.head?_cons, Option.some.injEq] at hhead
    exact hhead
  unfold pyStrip
  rw [List.append_assoc, List.dropWhile_append,
    if_pos (by rw [List.isEmpty_iff, List.dropWhile_eq_nil_iff]; exact hl)]
  have hstep : List.dropWhile isPySpace (d ++ wsr) = d ++ wsr := by
    rw [hd_eq, hc0, List.cons_append, List.dropWhile_cons, if_neg (by simp [hc])]
  rw [hstep, List.reverse_append, List.dropWhile_append,
    if_pos (by
      rw [List.isEmpty_iff, List.dropWhile_eq_nil_iff]
      intro x hx
      exact hr x (by simpa using hx))]
  obtain ⟨l0, hl0⟩ : ∃ l0, d.reverse = cl :: l0 := by
    cases hrev : d.reverse with
    | nil =>
      exfalso
      apply hd
      simpa using congrArg List.reverse hrev
    | cons x l0 =>
      have : d.getLast? = some x := by
        rw [List.getLast?_eq_head?_reverse, hrev]
        rfl
      rw [hlast] at this
      cases this
      exact ⟨l0, rfl⟩
  rw [hl0, List.dropWhile_cons, if_neg (by simp [hcl]), ← hl0]
  simp

/- =====================================================================
Claim C10: int-like xtime coercion.
===================================================================== -/

theorem isPySpace_digit (c : Char) (h : 48 ≤ c.toNat ∧ c.toNat ≤ 57) :
    isPySpace c = false := by
  simp only [isPySpace]
  rw [decide_eq_false_iff_not]
  omega

theorem intDecChars_ne_nil (i : Int) : intDecChars i ≠ [] := by
  unfold intDecChars
  split_ifs
  · simp
  · exact natDecChars_ne_nil _

theorem intDecChars_head (i : Int) :
    ∃ c, (intDecChars i).head? = some c ∧ isPySpace c = false := by
  unfold intDecChars
  by_cases hi : i < 0
  · rw [if_pos hi]
    exact ⟨Char.ofNat 45, by simp, by decide⟩
  · rw [if_neg hi]
    obtain ⟨c, cs, hcons⟩ : ∃ c cs, natDecChars i.toNat = c :: cs := by
      cases h : natDecChars i.toNat with
      | nil => exact absurd h (natDecChars_ne_nil _)
      | cons c cs => exact ⟨c, cs, rfl⟩
    refine ⟨c, by rw [hcons]; rfl, ?_⟩
    exact isPySpace_digit c (natDecChars_digits _ c (by rw [hcons]; simp))

theorem intDecChars_last (i : Int) :
    ∃ cl, (intDecChars i).getLast? = some cl ∧ isPySpace cl = false := by
  have hlast_nat : ∀ m : Nat, ∃ cl, (natDecChars m).getLast? = some cl ∧
      isPySpace cl = false := by
    intro m
    cases hgl : (natDecChars m).getLast? with
    | none =>
      exfalso
      apply natDecChars_ne_nil m
      rwa [List.getLast?_eq_none_iff] at hgl
    | some cl =>
      refine ⟨cl, rfl, ?_⟩
      exact isPySpace_digit cl (natDecChars_digits m cl (List.mem_of_mem_getLast? hgl))
  unfold intDecChars
  by_cases hi : i < 0
  · rw [if_pos hi]
    obtain ⟨c, cs, hcons⟩ : ∃ c cs, natDecChars i.natAbs = c :: cs := by
      cases h : natDecChars i.natAbs with
      | nil => exact absurd h (natDecChars_ne_nil _)
      | cons c cs => exact ⟨c, cs, rfl⟩
    obtain ⟨cl, hcl, hclns⟩ := hlast_nat i.natAbs
    rw [hcons] at hcl
    refine ⟨cl, ?_, hclns⟩
    rw [hcons, List.getLast?_cons_cons]
    exact hcl
  · rw [if_neg hi]
    exact hlast_nat i.toNat

theorem safeInt_wrapped_decimal (n : Int) (wsl wsr : List Char)
    (hl : ∀ x ∈ wsl, isPySpace x = true) (hr : ∀ x ∈ wsr, isPySpace x = true) :
    safeInt (PyVal.str (wsl ++ intDecChars n ++ wsr)) = some n := by
  obtain ⟨c, hhead, hcns⟩ := intDecChars_head n
  obtain ⟨cl, hlast, hclns⟩ := intDecChars_last n
  have hstrip : pyStrip (wsl ++ intDecChars n ++ wsr) = intDecChars n :=
    pyStrip_wrap wsl wsr (intDecChars n) c cl hl hr (intDecChars_ne_nil n)
      hhead hcns hlast hclns
  unfold safeInt
  dsimp only
  rw [hstrip, if_neg (by simp [intDecChars_ne_nil n])]
  exact pyParseInt_intDecChars n

/-- C10: decrypt_xdata_payload treats an integer xtime and its decimal
string form (possibly with surrounding whitespace) identically — the
_safe_int coercion makes the two representations indistinguishable at the
public interface. -/
theorem xtime_int_str_agree (C : BlockCipher) (env : CryptoEnv) (xd : PyVal) (n : Int)
    (wsl wsr : List Char)
    (hl : ∀ x ∈ wsl, isPySpace x = true) (hr : ∀ x ∈ wsr, isPySpace x = true) :
    decrypt_xdata_payload C env ⟨xd, PyVal.int n⟩
      = decrypt_xdata_payload C env ⟨xd, PyVal.str (wsl ++ intDecChars n ++ wsr)⟩ := by
  have hsafe2 := safeInt_wrapped_decimal n wsl wsr hl hr
  unfold decrypt_xdata_payload
  by_cases ht : pyTruthy xd
  · rw [if_neg (by simp [ht]), if_neg (by simp [ht])]
    show (match safeInt (PyVal.int n) with
      | Option.none => Json.obj .nil
      | some n =>
        match jsonParse (decrypt_xdata C env (pyToStr xd) n) with
        | Option.none => Json.obj .nil
        | some (Json.obj kvs) => Json.obj kvs
        | some _ => Json.obj .nil) =
      (match safeInt (PyVal.str (wsl ++ intDecChars n ++ wsr)) with
      | Option.none => Json.obj .nil
      | some n =>
        match jsonParse (decrypt_xdata C env (pyToStr xd) n) with
        | Option.none => Json.obj .nil
        | some (Json.obj kvs) => Json.obj kvs
        | some _ => Json.obj .nil)
    rw [hsafe2]
    rfl
  · rw [if_pos (by simp [ht]), if_pos (by simp [ht])]

/-- C10 witness: a successful concrete decryption where the integer and
whitespace-wrapped string timestamps give the same (non-trivial) result. -/
theorem xtime_int_str_agree_witness :
    decrypt_xdata_payload shiftCipher envA
      ⟨PyVal.str (encrypt_xdata shiftCipher envA (jsonDumps
        (Json.obj (JsonMembers.cons "a".data (Json.num 1) JsonMembers.nil))) 1700000000123),
       PyVal.int 1700000000123⟩
      = decrypt_xdata_payload shiftCipher envA
        ⟨PyVal.str (encrypt_xdata shiftCipher envA (jsonDumps
          (Json.obj (JsonMembers.cons "a".data (Json.num 1) JsonMembers.nil))) 1700000000123),
         PyVal.str (" ".data ++ intDecChars 1700000000123 ++ "\t ".data)⟩ :=
  xtime_int_str_agree shiftCipher envA _ 1700000000123 " ".data "\t ".data
    (by decide) (by decide)

/- =====================================================================
Claim C5: sig_time is whole seconds.
===================================================================== -/

/-- C5: whenever encrypt_and_sign_xdata returns a populated result, its
x_signature was computed by make_x_signature with sig_time equal to the
envelope millisecond timestamp floor-divided by 1000 — never the raw
millisecond value — and the envelope carries that millisecond timestamp
unchanged. -/
theorem sig_time_seconds (C : BlockCipher) (env : CryptoEnv) (xtime : Int)
    (method path id_token : List Char) (payload : Json) (r : SignedEnvelope)
    (h : encrypt_and_sign_xdata C env xtime method path id_token payload = some r) :
    r.x_signature = make_x_signature env id_token method path (Int.fdiv xtime 1000) ∧
    r.xtime = xtime := by
  unfold encrypt_and_sign_xdata at h
  dsimp only at h
  by_cases h1 : encrypt_xdata C env (jsonDumps payload) xtime = []
  · rw [if_pos h1] at h
    exact absurd h (by simp)
  · rw [if_neg h1] at h
    by_cases h2 : make_x_signature env id_token method path (Int.fdiv xtime 1000) = []
    · rw [if_pos h2] at h
      exact absurd h (by simp)
    · rw [if_neg h2] at h
      cases h
      exact ⟨rfl, rfl⟩

/-- C5 witness: at a concrete payload and timestamp the populated result
carries the signature computed at 1700000000123 fdiv 1000 seconds. -/
theorem sig_time_seconds_witness :
    ((encrypt_and_sign_xdata shiftCipher envA 1700000000123 "POST".data "/api".data
        "tok".data (Json.obj (JsonMembers.cons "a".data (Json.num 1) JsonMembers.nil))).getD
        ⟨[], [], 0⟩).x_signature
      = make_x_signature envA "tok".data "POST".data "/api".data
          (Int.fdiv 1700000000123 1000) ∧
    ((encrypt_and_sign_xdata shiftCipher envA 1700000000123 "POST".data "/api".data
        "tok".data (Json.obj (JsonMembers.cons "a".data (Json.num 1) JsonMembers.nil))).getD
        ⟨[], [], 0⟩).xtime = 1700000000123 :=
  sig_time_seconds shiftCipher envA 1700000000123 "POST".data "/api".data "tok".data
    (Json.obj (JsonMembers.cons "a".data (Json.num 1) JsonMembers.nil)) _ (by decide)

/- =====================================================================
Claim C6: decrypt_xdata_payload fails soft.
===================================================================== -/

theorem firstDecrypt_all_fail (C : BlockCipher) (x : List Char) (t : Int)
    (ks : List Bytes) (hfail : ∀ k ∈ ks, tryDecryptWithKey C x t k = Option.none) :
    firstDecrypt C x t ks = Option.none := by
  have h := firstDecrypt_skip C x t ks [] hfail
  rwa [List.append_nil] at h

theorem jsonParse_empty : jsonParse jsonEmptyChars = some (Json.obj .nil) := rfl

/-- C6: decrypt_xdata_payload returns the empty JSON object whenever the
trial decryption fails for every candidate key (the helper then yields the
two-character object string), and also whenever JSON parsing of the
recovered plaintext succeeds but yields a non-object; being a total
function it never raises to the caller. -/
theorem decrypt_payload_fails_soft :
    (∀ (C : BlockCipher) (env : CryptoEnv) (x xt : PyVal) (n : Int),
      safeInt xt = some n →
      (∀ kb ∈ iterCandidateKeys env,
        tryDecryptWithKey C (pyToStr x) n kb = Option.none) →
      decrypt_xdata_payload C env ⟨x, xt⟩ = Json.obj .nil) ∧
    (∀ (C : BlockCipher) (env : CryptoEnv) (x xt : PyVal) (n : Int) (v : Json),
      safeInt xt = some n →
      jsonParse (decrypt_xdata C env (pyToStr x) n) = some v →
      (∀ kvs, v ≠ Json.obj kvs) →
      decrypt_xdata_payload C env ⟨x, xt⟩ = Json.obj .nil) := by
  constructor
  · intro C env x xt n hsafe hfail
    unfold decrypt_xdata_payload
    by_cases htr : ¬ pyTruthy x ∨ xt = PyVal.none
    · rw [if_pos (by simpa using htr)]
    · rw [if_neg (by simpa using htr)]
      show (match safeInt xt with
        | Option.none => Json.obj .nil
        | some n =>
          match jsonParse (decrypt_xdata C env (pyToStr x) n) with
          | Option.none => Json.obj .nil
          | some (Json.obj kvs) => Json.obj kvs
          | some _ => Json.obj .nil) = Json.obj .nil
      rw [hsafe]
      have hdec : decrypt_xdata C env (pyToStr x) n = jsonEmptyChars := by
        unfold decrypt_xdata
        by_cases hx : pyToStr x = []
        · rw [if_pos hx]
        · rw [if_neg hx, firstDecrypt_all_fail C (pyToStr x) n _ hfail]
      show (match jsonParse (decrypt_xdata C env (pyToStr x) n) with
        | Option.none => Json.obj .nil
        | some (Json.obj kvs) => Json.obj kvs
        | some _ => Json.obj .nil) = Json.obj .nil
      rw [hdec, jsonParse_empty]
  · intro C env x xt n v hsafe hparse hnobj
    unfold decrypt_xdata_payload
    by_cases htr : ¬ pyTruthy x ∨ xt = PyVal.none
    · rw [if_pos (by simpa using htr)]
    · rw [if_neg (by simpa using htr)]
      show (match safeInt xt with
        | Option.none => Json.obj .nil
        | some n =>
          match jsonParse (decrypt_xdata C env (pyToStr x) n) with
          | Option.none => Json.obj .nil
          | some (Json.obj kvs) => Json.obj kvs
          | some _ => Json.obj .nil) = Json.obj .nil
      rw [hsafe]
      show (match jsonParse (decrypt_xdata C env (pyToStr x) n) with
        | Option.none => Json.obj .nil
        | some (Json.obj kvs) => Json.obj kvs
        | some _ => Json.obj .nil) = Json.obj .nil
      rw [hparse]
      cases v with
      | obj kvs => exact absurd rfl (hnobj kvs)
      | null => rfl
      | bool b => rfl
      | num m => rfl
      | str s => rfl
      | arr xs => rfl

/-- C6 witness: a concrete envelope failing under every candidate key
yields the empty object, and a concrete envelope whose plaintext parses to
the non-object 123 also yields the empty object. -/
theorem decrypt_payload_fails_soft_witness :
    decrypt_xdata_payload shiftCipher envA ⟨PyVal.str "garbage".data, PyVal.int 99⟩
      = Json.obj .nil ∧
    decrypt_xdata_payload shiftCipher envA
      ⟨PyVal.str (encrypt_xdata shiftCipher envA "123".data 1700000000123),
       PyVal.int 1700000000123⟩ = Json.obj .nil :=
  ⟨decrypt_payload_fails_soft.1 shiftCipher envA (PyVal.str "garbage".data)
      (PyVal.int 99) 99 (by decide) (by decide),
   decrypt_payload_fails_soft.2 shiftCipher envA
      (PyVal.str (encrypt_xdata shiftCipher envA "123".data 1700000000123))
      (PyVal.int 1700000000123) 1700000000123 (Json.num 123) (by decide) (by rfl)
      (fun kvs h => Json.noConfusion h)⟩

/- =====================================================================
Claim C2: IV derivation.
===================================================================== -/

/-- C2: for every integer millisecond timestamp t the envelope IV equals
the ASCII character codes of the first 16 hex characters of the SHA-256
hex digest of the decimal string of t (the hex characters are used as
bytes directly, not hex-decoded), and this IV is always exactly 16 bytes
long. -/
theorem xdata_iv_derivation (t : Int) :
    derive_iv t =
      ((bytesToHex (sha256 (utf8Encode (intDecChars t)))).take 16).map Char.toNat ∧
    (derive_iv t).length = 16 :=
  ⟨derive_iv_spec t, derive_iv_length t⟩

/- =====================================================================
Claim C9: empty plaintext.
===================================================================== -/

/-- C9: encrypt_xdata applied to the empty plaintext returns the empty
string for every timestamp and every configuration — also when the xdata
key is present and valid — so emptiness of the plaintext is by itself a
failure condition. -/
theorem encrypt_empty_plaintext (C : BlockCipher) (env : CryptoEnv) (t : Int) :
    encrypt_xdata C env [] t = [] := rfl

/- =====================================================================
Claim C4: empty id_token and make_x_signature.
===================================================================== -/

/-- C4 (counterexample to the claim as stated): at a concrete method, path
and signature time, make_x_signature with an empty id_token does NOT
return the empty string — the source has no emptiness check. -/
theorem empty_token_signature_counterexample :
    make_x_signature envA [] "GET".data "/api/v8/auth".data 1700000000 ≠ [] := by
  intro h
  have hl : (make_x_signature envA [] "GET".data "/api/v8/auth".data 1700000000).length
      = 128 := by
    unfold make_x_signature
    exact hmacSha512Hex_length _ _
  rw [h] at hl
  simp at hl

/-- C4 (amended): make_x_signature performs no input validation: given an
empty id_token it still returns the full 128-character HMAC-SHA512 hex
digest (in particular a non-empty string), for every method, path,
signature time and configuration. -/
theorem empty_token_signature_nonempty (env : CryptoEnv) (method path : List Char)
    (t : Int) : (make_x_signature env [] method path t).length = 128 := by
  unfold make_x_signature
  exact hmacSha512Hex_length _ _

end Tmbk
